import Mathlib

/-!
# Conductor: orderly shutdown of goroutines and closers

A verification development for `conductor.go`.

The Go type `Conductor` owns a `sync.WaitGroup` (`wg`), a `sync.RWMutex`
(`mu`), a slice of `io.Closer` (`cl`) and an error callback (`errf`).

Two embeddings of the source are given.

* A sequential one: `FinishAsap` and `RegisterClosers` as functions on the
  conductor and an abstract world, used for what one call does on its own.
* A concurrent one: every goroutine is a program counter (`Pc`) over the
  statements of `Go`, `RegisterClosers` and `FinishAsap`, and `step` executes
  one statement of one goroutine.  `Reachable` is the closure of `step` from
  `NewConductor`.  `runs_finishCall` relates the two.  `sigStep` adds one call
  of `FinishOnSignals`, the delivery of signals and the handler's statements.

Library primitives are modelled by their documented meaning:
`RWMutex.RLock` proceeds only while no writer holds the lock, `RWMutex.Lock`
only while nobody holds it, `WaitGroup.Wait` only while the counter is zero.
-/

namespace GoConductor

/-! ## Data model -/

/-- Handle of an `io.Closer` value. -/
abbrev Res := Nat

/-- A non-nil `error` value. -/
abbrev Err := String

/-- Handle of a `func(error)` value. -/
abbrev Fn := Nat

/-- Calls made by the conductor's code, in the order they happen. -/
inductive Event where
  /-- Call of `c.wg.Add(1)` (line 38). -/
  | add
  /-- Call of `c.wg.Done()` (line 40). -/
  | done
  /-- The range expression `c.cl` was evaluated (line 65). -/
  | pass (snap : List Res)
  /-- Call of `cc.Close()` on `r`, which returned `ret` (line 66). -/
  | close (r : Res) (ret : Option Err)
  /-- Call of `c.errf(err)` (line 67). -/
  | sink (f : Fn) (e : Err)
  deriving DecidableEq, Repr

/-- The fields of the Go struct `Conductor` (lines 14-19).  The wait group is
its counter; the read/write mutex is its number of readers and whether a
writer holds it. -/
structure Conductor where
  wg : Int
  readers : Nat
  writer : Bool
  cl : List Res
  errf : Fn
  deriving DecidableEq, Repr

/-- Constructor `NewConductor` (lines 23-29). -/
def NewConductor (errf : Fn) : Conductor :=
  { wg := 0, readers := 0, writer := false, cl := [], errf := errf }

/-- The resources on which `Close` was called, in call order. -/
def closes : List Event → List Res
  | [] => []
  | Event.close r _ :: t => r :: closes t
  | _ :: t => closes t

/-- The values returned by the `Close` calls, in call order. -/
def closeRets : List Event → List (Option Err)
  | [] => []
  | Event.close _ ret :: t => ret :: closeRets t
  | _ :: t => closeRets t

/-- The non-nil errors returned by the `Close` calls, in call order. -/
def failures : List Event → List Err
  | [] => []
  | Event.close _ (some e) :: t => e :: failures t
  | _ :: t => failures t

/-- The values passed to the error callback, in call order. -/
def sinks : List Event → List Err
  | [] => []
  | Event.sink _ e :: t => e :: sinks t
  | _ :: t => sinks t

/-- The callbacks that were invoked, in call order. -/
def sinkFns : List Event → List Fn
  | [] => []
  | Event.sink f _ :: t => f :: sinkFns t
  | _ :: t => sinkFns t

/-- Number of `wg.Add(1)` calls. -/
def adds : List Event → Nat
  | [] => 0
  | Event.add :: t => adds t + 1
  | _ :: t => adds t

/-- Number of `wg.Done()` calls. -/
def dones : List Event → Nat
  | [] => 0
  | Event.done :: t => dones t + 1
  | _ :: t => dones t

/-- Number of release passes started. -/
def passes : List Event → Nat
  | [] => 0
  | Event.pass _ :: t => passes t + 1
  | _ :: t => passes t

/-- The slices the release passes iterated over, in order. -/
def snaps : List Event → List (List Res)
  | [] => []
  | Event.pass snap :: t => snap :: snaps t
  | _ :: t => snaps t

/-! ## Sequential embedding -/

/-- What the code outside the conductor does: `Close` of each closer and the
body of each callback, as functions of an abstract world. -/
structure Env (σ : Type) where
  Close : Res → σ → Option Err × σ
  call : Fn → Err → σ → σ

/-- What one iteration of the loop body (lines 66-68) calls when `Close`
returned `ret`. -/
def iterEvents (errf : Fn) (r : Res) : Option Err → List Event
  | none => [Event.close r none]
  | some e => [Event.close r (some e), Event.sink errf e]

/-- The loop of `FinishAsap` (lines 65-69) over the slice `cl`. -/
def releasePass {σ : Type} (env : Env σ) (errf : Fn) : List Res → σ → List Event × σ
  | [], w => ([], w)
  | cc :: rest, w =>
    match env.Close cc w with
    | (none, w1) =>
      let out := releasePass env errf rest w1
      (Event.close cc none :: out.1, out.2)
    | (some err, w1) =>
      let out := releasePass env errf rest (env.call errf err w1)
      (Event.close cc (some err) :: Event.sink errf err :: out.1, out.2)

/-- One call of `FinishAsap` (lines 59-70) with no other goroutine running.
`none` is a call that never returns: `Lock` waits for the mutex to be free and
`Wait` for the counter to be zero, and nobody else can change them. -/
def FinishAsap {σ : Type} (env : Env σ) (c : Conductor) (w : σ) :
    Option (Conductor × List Event × σ) :=
  if c.writer = false ∧ c.readers = 0 then
    let c1 := { c with writer := true }
    if c1.wg = 0 then
      let out := releasePass env c1.errf c1.cl w
      some ({ c1 with writer := false }, Event.pass c1.cl :: out.1, out.2)
    else none
  else none

/-- One call of `RegisterClosers` (lines 48-53) with no other goroutine
running.  `none` is a call that never returns: `RLock` waits for the writer. -/
def RegisterClosers (c : Conductor) (cl : List Res) : Option Conductor :=
  if c.writer = false then
    let c1 := { c with readers := c.readers + 1 }
    let c2 := { c1 with cl := c1.cl ++ cl }
    some { c2 with readers := c2.readers - 1 }
  else none

/-- The calls a release pass over `cl` makes when the `Close` calls return
`rets`, position by position. -/
def expected (errf : Fn) : List Res → List (Option Err) → List Event
  | r :: rs, o :: os => iterEvents errf r o ++ expected errf rs os
  | _, _ => []

/-- A world with nothing in it where `Close` fails with "E" on closer 2 only. -/
def secondFails : Env Unit :=
  { Close := fun r w => (if r = 2 then some "E" else none, w), call := fun _ _ w => w }

/-! ## Concurrent embedding -/

/-- Where a goroutine stands in the source: the statement it executes next. -/
inductive Pc where
  /-- In `Go`: at `c.mu.RLock()` (line 35). -/
  | goRLock
  /-- In `Go`: at `c.wg.Add(1)` (line 38). -/
  | goAdd
  /-- In `Go`: at the `go` statement (line 39). -/
  | goSpawn
  /-- In `Go`: at the deferred `c.mu.RUnlock()` (line 36). -/
  | goRUnlock
  /-- The spawned goroutine: inside `f()` (line 41). -/
  | taskRun
  /-- The spawned goroutine: at the deferred `c.wg.Done()` (line 40). -/
  | taskDone
  /-- In `RegisterClosers(cl...)`: at `c.mu.RLock()` (line 49). -/
  | regRLock (cl : List Res)
  /-- In `RegisterClosers`: about to read `c.cl` in `append(c.cl, cl...)` (line 52). -/
  | regRead (cl : List Res)
  /-- In `RegisterClosers`: has read `old`, about to assign `c.cl` (line 52). -/
  | regWrite (old cl : List Res)
  /-- In `RegisterClosers`: at the deferred `c.mu.RUnlock()` (line 50). -/
  | regRUnlock
  /-- In `FinishAsap`: at `c.mu.Lock()` (line 60). -/
  | finLock
  /-- In `FinishAsap`: at `c.wg.Wait()` (line 63). -/
  | finWait
  /-- In `FinishAsap`: about to evaluate the range expression `c.cl` (line 65). -/
  | finRange
  /-- In `FinishAsap`: at the head of the loop, `rest` still to be visited (line 65);
  with `rest = cc :: _` the next statement is `cc.Close()` (line 66). -/
  | finLoop (rest : List Res)
  /-- In `FinishAsap`: `Close` returned `err`, at `c.errf(err)` (line 67). -/
  | finSink (err : Err) (rest : List Res)
  /-- In `FinishAsap`: at the deferred `c.mu.Unlock()` (line 61). -/
  | finUnlock
  /-- The call of `FinishAsap` has returned. -/
  | finRet
  /-- The call of `Go` or `RegisterClosers`, or the spawned goroutine, has returned. -/
  | ret
  deriving DecidableEq, Repr

/-- The whole program: the conductor, every goroutine that called into it or
was spawned by it, and the calls made so far. -/
structure State where
  c : Conductor
  threads : List Pc
  trace : List Event
  deriving DecidableEq, Repr

/-- The effect of one statement: the conductor after it, the statement the
goroutine executes next, the goroutines it started and the calls it made. -/
structure Local where
  c : Conductor
  pc : Pc
  spawn : List Pc
  ev : List Event
  deriving DecidableEq, Repr

/-- One statement of the source, executed atomically.  `none` means the
statement cannot proceed (it blocks, or the function has returned).  `ret` is
the value `cc.Close()` returns when the statement is that call. -/
def exec (ret : Option Err) (c : Conductor) : Pc → Option Local
  | Pc.goRLock =>
    if c.writer = false then
      some ⟨{ c with readers := c.readers + 1 }, Pc.goAdd, [], []⟩
    else none
  | Pc.goAdd => some ⟨{ c with wg := c.wg + 1 }, Pc.goSpawn, [], [Event.add]⟩
  | Pc.goSpawn => some ⟨c, Pc.goRUnlock, [Pc.taskRun], []⟩
  | Pc.goRUnlock => some ⟨{ c with readers := c.readers - 1 }, Pc.ret, [], []⟩
  | Pc.taskRun => some ⟨c, Pc.taskDone, [], []⟩
  | Pc.taskDone => some ⟨{ c with wg := c.wg - 1 }, Pc.ret, [], [Event.done]⟩
  | Pc.regRLock cl =>
    if c.writer = false then
      some ⟨{ c with readers := c.readers + 1 }, Pc.regRead cl, [], []⟩
    else none
  | Pc.regRead cl => some ⟨c, Pc.regWrite c.cl cl, [], []⟩
  | Pc.regWrite old cl => some ⟨{ c with cl := old ++ cl }, Pc.regRUnlock, [], []⟩
  | Pc.regRUnlock => some ⟨{ c with readers := c.readers - 1 }, Pc.ret, [], []⟩
  | Pc.finLock =>
    if c.writer = false ∧ c.readers = 0 then
      some ⟨{ c with writer := true }, Pc.finWait, [], []⟩
    else none
  | Pc.finWait =>
    if c.wg = 0 then some ⟨c, Pc.finRange, [], []⟩ else none
  | Pc.finRange => some ⟨c, Pc.finLoop c.cl, [], [Event.pass c.cl]⟩
  | Pc.finLoop [] => some ⟨c, Pc.finUnlock, [], []⟩
  | Pc.finLoop (cc :: rest) =>
    match ret with
    | none => some ⟨c, Pc.finLoop rest, [], [Event.close cc none]⟩
    | some err => some ⟨c, Pc.finSink err rest, [], [Event.close cc (some err)]⟩
  | Pc.finSink err rest => some ⟨c, Pc.finLoop rest, [], [Event.sink c.errf err]⟩
  | Pc.finUnlock => some ⟨{ c with writer := false }, Pc.finRet, [], []⟩
  | Pc.finRet => none
  | Pc.ret => none

/-- What can happen next: some goroutine calls one of the public operations,
or goroutine `tid` executes its next statement. -/
inductive Action where
  | callGo
  | callRegisterClosers (cl : List Res)
  | callFinishAsap
  | run (tid : Nat) (ret : Option Err)
  deriving DecidableEq, Repr

/-- One step of the program. -/
def step (s : State) : Action → Option State
  | Action.callGo => some { s with threads := s.threads ++ [Pc.goRLock] }
  | Action.callRegisterClosers cl => some { s with threads := s.threads ++ [Pc.regRLock cl] }
  | Action.callFinishAsap => some { s with threads := s.threads ++ [Pc.finLock] }
  | Action.run tid ret =>
    match s.threads[tid]? with
    | none => none
    | some pc =>
      match exec ret s.c pc with
      | none => none
      | some l =>
        some { c := l.c, threads := s.threads.set tid l.pc ++ l.spawn, trace := s.trace ++ l.ev }

/-- A schedule, executed from `s`. -/
def runs (s : State) : List Action → Option State
  | [] => some s
  | a :: rest =>
    match step s a with
    | none => none
    | some s1 => runs s1 rest

/-- The program right after `NewConductor(errf)`. -/
def init (errf : Fn) : State :=
  { c := NewConductor errf, threads := [], trace := [] }

/-- The states the program can be in. -/
inductive Reachable (errf : Fn) : State → Prop where
  | start : Reachable errf (init errf)
  | next {s s1 : State} (a : Action) : Reachable errf s → step s a = some s1 → Reachable errf s1

/-! ## Where a goroutine stands -/

/-- The goroutine holds the read lock. -/
def Pc.readLocked : Pc → Bool
  | Pc.goAdd | Pc.goSpawn | Pc.goRUnlock => true
  | Pc.regRead _ | Pc.regWrite _ _ | Pc.regRUnlock => true
  | _ => false

/-- The goroutine holds the write lock. -/
def Pc.writeLocked : Pc → Bool
  | Pc.finWait | Pc.finRange | Pc.finLoop _ | Pc.finSink _ _ | Pc.finUnlock => true
  | _ => false

/-- The goroutine is inside the guarded section of `Go` or `RegisterClosers`
(between `RLock` and `RUnlock`). -/
def Pc.guarded : Pc → Bool := Pc.readLocked

/-- The goroutine stands for one unit of the wait group counter: `Add(1)` was
done for it and `Done()` has not been. -/
def Pc.live : Pc → Bool
  | Pc.goSpawn | Pc.taskRun | Pc.taskDone => true
  | _ => false

/-- A spawned goroutine whose work `f()` has not returned. -/
def Pc.running : Pc → Bool
  | Pc.taskRun => true
  | _ => false

/-- The call of `FinishAsap` is past `c.wg.Wait()` and has not unlocked. -/
def Pc.drained : Pc → Bool
  | Pc.finRange | Pc.finLoop _ | Pc.finSink _ _ | Pc.finUnlock => true
  | _ => false

/-- The next statement is a call of `Close`. -/
def Pc.closing : Pc → Bool
  | Pc.finLoop (_ :: _) => true
  | _ => false

/-- The next statement is a call of the error callback. -/
def Pc.sinking : Pc → Bool
  | Pc.finSink _ _ => true
  | _ => false

/-- The goroutine is a call of `FinishAsap`. -/
def Pc.shutdown : Pc → Bool
  | Pc.finLock | Pc.finWait | Pc.finRange | Pc.finLoop _ | Pc.finSink _ _ => true
  | Pc.finUnlock | Pc.finRet => true
  | _ => false

/-- The goroutine is a call of `FinishAsap` whose loop is over. -/
def Pc.passed : Pc → Bool
  | Pc.finUnlock | Pc.finRet => true
  | _ => false

/-- The goroutine is inside a call of `Go`. -/
def Pc.inGo : Pc → Bool
  | Pc.goRLock | Pc.goAdd | Pc.goSpawn | Pc.goRUnlock => true
  | _ => false

/-- The goroutine is inside a call of `RegisterClosers`. -/
def Pc.inRegisterClosers : Pc → Bool
  | Pc.regRLock _ | Pc.regRead _ | Pc.regWrite _ _ | Pc.regRUnlock => true
  | _ => false

/-! ## Signal-driven shutdown -/

/-- A `syscall.Signal`. -/
abbrev Signal := Nat

/-- Where one invocation of the handler that `FinishOnSignals` registers
(lines 78-82) stands. -/
inductive HandlerPc where
  /-- Inside `c.FinishAsap()` (line 79); goroutine `tid` of the conductor
  program executes that call, statement by statement. -/
  | inFinishAsap (tid : Nat)
  /-- At `close(st)` (line 80). -/
  | closeSt
  /-- After `return nil` (line 81). -/
  | returned
  /-- Stopped by the run-time panic of closing a closed channel. -/
  | panicked
  deriving DecidableEq, Repr

/-- The conductor program together with one call of `FinishOnSignals`: whether
the channel `st` is closed, the signals the handler is registered for, the
handler invocations made so far, whether the receive of line 84 has returned,
and whether the process has ended in a panic. -/
structure Program where
  s : State
  st : Bool
  sigs : List Signal
  handlers : List HandlerPc
  received : Bool
  crashed : Bool
  deriving DecidableEq, Repr

/-- The call `FinishOnSignals(sigs...)` up to its receive (lines 76-83), made
in state `s` of the conductor program: a new open channel, and the handler
registered for every signal of `sigs`. -/
def FinishOnSignals (s : State) (sigs : List Signal) : Program :=
  { s := s, st := false, sigs := sigs, handlers := [], received := false, crashed := false }

/-- The next statement of handler invocation `i` outside `c.FinishAsap()`:
the return from `c.FinishAsap()` once its goroutine has returned, then
`close(st)`, which panics when the channel is closed already, then
`return nil`.  Nothing in the source recovers the panic; the process is taken
to end with it. -/
def handler (p : Program) (i : Nat) : Option Program :=
  match p.handlers[i]? with
  | some (HandlerPc.inFinishAsap tid) =>
    if p.s.threads[tid]? = some Pc.finRet then
      some { p with handlers := p.handlers.set i HandlerPc.closeSt }
    else none
  | some HandlerPc.closeSt =>
    if p.st = true then
      some { p with handlers := p.handlers.set i HandlerPc.panicked, crashed := true }
    else
      some { p with handlers := p.handlers.set i HandlerPc.returned, st := true }
  | _ => none

/-- What can happen next in a program that called `FinishOnSignals`: a step of
the conductor program, the delivery of a signal, the next statement of a
handler invocation, or the receive `<-st` (line 84). -/
inductive SigAction where
  | prog (a : Action)
  | deliver (sig : Signal)
  | handler (i : Nat)
  | receive
  deriving DecidableEq, Repr

/-- One step of the program.  The delivery of a bound signal invokes the
handler once: the invocation calls `c.FinishAsap()` in a goroutine of the
conductor program.  The receive returns once the channel is closed.  After a
panic there is no step. -/
def sigStep (p : Program) : SigAction → Option Program
  | SigAction.prog a =>
    if p.crashed = true then none
    else
      match step p.s a with
      | none => none
      | some s1 => some { p with s := s1 }
  | SigAction.deliver sig =>
    if p.crashed = true then none
    else if sig ∈ p.sigs then
      some { p with s := { p.s with threads := p.s.threads ++ [Pc.finLock] },
                    handlers := p.handlers ++ [HandlerPc.inFinishAsap p.s.threads.length] }
    else none
  | SigAction.handler i =>
    if p.crashed = true then none else handler p i
  | SigAction.receive =>
    if p.crashed = true then none
    else if p.st = true ∧ p.received = false then some { p with received := true }
    else none

/-- A schedule of the program, executed from `p`. -/
def sigRuns (p : Program) : List SigAction → Option Program
  | [] => some p
  | a :: rest =>
    match sigStep p a with
    | none => none
    | some p1 => sigRuns p1 rest

/-! ## Invariants -/

/-- What holds in every reachable state: the mutex counts the goroutines that
hold it, a writer excludes readers, the wait group counts the spawned
goroutines that have not called `Done`, and a call of `FinishAsap` that is past
`Wait` sees the counter at zero. -/
structure Inv (s : State) : Prop where
  readers : s.c.readers = s.threads.countP Pc.readLocked
  writer : s.c.writer.toNat = s.threads.countP Pc.writeLocked
  excl : s.c.writer = true → s.c.readers = 0
  wg : s.c.wg = (s.threads.countP Pc.live : Int)
  drained : ∀ pc ∈ s.threads, pc.drained = true → s.c.wg = 0
  count : s.c.wg = (adds s.trace : Int) - (dones s.trace : Int)

/-- What the trace looks like from where a goroutine stands, when only one
call of `FinishAsap` exists: before its loop nothing was closed, inside the
loop the closed entries followed by the entries still to visit are `c.cl`,
after the loop the closed entries are the slice the loop ranged over; and a
call of `RegisterClosers` that has read `c.cl` has read at least the closed
entries. -/
def Pc.passInv (cl : List Res) (t : List Event) : Pc → Prop
  | Pc.finLock | Pc.finWait | Pc.finRange => snaps t = [] ∧ closes t = []
  | Pc.finLoop rest | Pc.finSink _ rest => snaps t = [cl] ∧ closes t ++ rest = cl
  | Pc.finUnlock => snaps t = [cl] ∧ closes t = cl
  | Pc.finRet => snaps t = [closes t]
  | Pc.regWrite old _ => closes t <+: old
  | _ => True

/-- What holds in every reachable state with at most one call of
`FinishAsap`. -/
structure Single (s : State) : Prop where
  quiet : s.threads.countP Pc.shutdown = 0 → snaps s.trace = [] ∧ closes s.trace = []
  each : ∀ pc ∈ s.threads, pc.passInv s.c.cl s.trace
  pre : closes s.trace <+: s.c.cl

/-! ## Schedules and the states they lead to -/

/-- The schedule of one call of `RegisterClosers` by goroutine `tid` that no
other goroutine interrupts: `RLock`, read `c.cl`, assign `c.cl`, `RUnlock`. -/
def registerCall (tid : Nat) : List Action :=
  [Action.run tid none, Action.run tid none, Action.run tid none, Action.run tid none]

/-- Successive calls of `RegisterClosers`, each made by a new goroutine (the
first is goroutine `n`) and run to its end before the next is made. -/
def registerSeq (n : Nat) : List (List Res) → List Action
  | [] => []
  | cl :: rest => Action.callRegisterClosers cl :: (registerCall n ++ registerSeq (n + 1) rest)

/-- The statements of the loop of `FinishAsap` that goroutine `tid` executes
when the `Close` calls return `rets`: each `Close`, and the callback after a
failed one. -/
def loopSched (tid : Nat) : List (Option Err) → List Action
  | [] => []
  | none :: rest => Action.run tid none :: loopSched tid rest
  | some e :: rest => Action.run tid (some e) :: Action.run tid none :: loopSched tid rest

/-- The schedule of one call of `FinishAsap` by goroutine `tid` that no other
goroutine interrupts: `Lock`, `Wait`, the range expression, the loop, the loop
exit and `Unlock`. -/
def finishCall (tid : Nat) (rets : List (Option Err)) : List Action :=
  [Action.run tid none, Action.run tid none, Action.run tid none] ++
    (loopSched tid rets ++ [Action.run tid none, Action.run tid none])

/-- A schedule: `RegisterClosers(7)` runs to its end, `Go(f)` runs to its end,
the spawned goroutine runs to its end, then `FinishAsap` locks, waits and
evaluates its range expression. -/
def toClose : List Action :=
  [Action.callRegisterClosers [7], Action.run 0 none, Action.run 0 none, Action.run 0 none,
    Action.run 0 none,
    Action.callGo, Action.run 1 none, Action.run 1 none, Action.run 1 none, Action.run 1 none,
    Action.run 2 none, Action.run 2 none,
    Action.callFinishAsap, Action.run 3 none, Action.run 3 none, Action.run 3 none]

/-- The state at the end of `toClose`: `FinishAsap` is about to call
`Close` on closer 7. -/
def atClose : State :=
  { c := { wg := 0, readers := 0, writer := true, cl := [7], errf := 0 },
    threads := [Pc.ret, Pc.ret, Pc.ret, Pc.finLoop [7]],
    trace := [Event.add, Event.done, Event.pass [7]] }

/-- A schedule: `Go(f)` runs up to and including `c.wg.Add(1)`. -/
def toSpawn : List Action :=
  [Action.callGo, Action.run 0 none, Action.run 0 none]

/-- The state at the end of `toSpawn`. -/
def atSpawn : State :=
  { c := { wg := 1, readers := 1, writer := false, cl := [], errf := 0 },
    threads := [Pc.goSpawn],
    trace := [Event.add] }

/-- A schedule: `FinishAsap` is called on a fresh conductor and locks. -/
def toWait : List Action :=
  [Action.callFinishAsap, Action.run 0 none]

/-- The state at the end of `toWait`. -/
def atWait : State :=
  { c := { wg := 0, readers := 0, writer := true, cl := [], errf := 0 },
    threads := [Pc.finWait],
    trace := [] }

/-- A conductor holding closer 7 on which `RegisterClosers(8, 9)` was just
called by goroutine 0. -/
def atRegister : State :=
  { c := { wg := 0, readers := 0, writer := false, cl := [7], errf := 0 },
    threads := [Pc.regRLock [8, 9]],
    trace := [] }

/-- A schedule: `RegisterClosers(1)` and `RegisterClosers(2)` are called by
two goroutines; both take the read lock, both read `c.cl`, then both assign
it, then both unlock. -/
def raceSched : List Action :=
  [Action.callRegisterClosers [1], Action.callRegisterClosers [2],
    Action.run 0 none, Action.run 1 none,
    Action.run 0 none, Action.run 1 none,
    Action.run 0 none, Action.run 1 none,
    Action.run 0 none, Action.run 1 none]

/-- A schedule: `RegisterClosers(7)` runs to its end, then `FinishAsap` is
called twice, the second call after the first has returned, and each runs to
its end with `Close` succeeding. -/
def twoPasses : List Action :=
  [Action.callRegisterClosers [7], Action.run 0 none, Action.run 0 none, Action.run 0 none,
    Action.run 0 none,
    Action.callFinishAsap, Action.run 1 none, Action.run 1 none, Action.run 1 none,
    Action.run 1 none, Action.run 1 none, Action.run 1 none,
    Action.callFinishAsap, Action.run 2 none, Action.run 2 none, Action.run 2 none,
    Action.run 2 none, Action.run 2 none, Action.run 2 none]

/-- The state at the end of `twoPasses`. -/
def afterTwoPasses : State :=
  { c := { wg := 0, readers := 0, writer := false, cl := [7], errf := 0 },
    threads := [Pc.ret, Pc.finRet, Pc.finRet],
    trace := [Event.pass [7], Event.close 7 none, Event.pass [7], Event.close 7 none] }

/-- A schedule: `RegisterClosers(7)` runs to its end, then one call of
`FinishAsap` runs to its end with `Close` failing. -/
def onePass : List Action :=
  [Action.callRegisterClosers [7], Action.run 0 none, Action.run 0 none, Action.run 0 none,
    Action.run 0 none,
    Action.callFinishAsap, Action.run 1 none, Action.run 1 none, Action.run 1 none,
    Action.run 1 (some "E"), Action.run 1 none, Action.run 1 none, Action.run 1 none]

/-- The state at the end of `onePass`. -/
def afterOnePass : State :=
  { c := { wg := 0, readers := 0, writer := false, cl := [7], errf := 0 },
    threads := [Pc.ret, Pc.finRet],
    trace := [Event.pass [7], Event.close 7 (some "E"), Event.sink 0 "E"] }

/-- A schedule: `RegisterClosers(7)` runs to its end, `Go(f)` runs to its end,
and the spawned goroutine is still inside `f()`. -/
def toLive : List Action :=
  [Action.callRegisterClosers [7], Action.run 0 none, Action.run 0 none, Action.run 0 none,
    Action.run 0 none,
    Action.callGo, Action.run 1 none, Action.run 1 none, Action.run 1 none, Action.run 1 none]

/-- The state at the end of `toLive`: closer 7 is registered and goroutine 2
is inside `f()`. -/
def atLive : State :=
  { c := { wg := 1, readers := 0, writer := false, cl := [7], errf := 0 },
    threads := [Pc.ret, Pc.ret, Pc.taskRun],
    trace := [Event.add] }

/-- A schedule: a bound signal is delivered and the handler's `FinishAsap`
(goroutine 3) takes the lock, while goroutine 2 is still inside `f()`. -/
def lockedWhileLive (sig : Signal) : List SigAction :=
  [SigAction.deliver sig, SigAction.prog (Action.run 3 none)]

/-- A schedule: a bound signal is delivered; the handler's `FinishAsap`
(goroutine 3) locks, the spawned goroutine 2 returns from `f()` and calls
`Done`, then `FinishAsap` passes `Wait`, closes closer 7 and unlocks; the handler
returns from `FinishAsap`, closes `st` and returns; the receive returns. -/
def firstDelivery (sig : Signal) : List SigAction :=
  lockedWhileLive sig ++
  [SigAction.prog (Action.run 2 none), SigAction.prog (Action.run 2 none),
    SigAction.prog (Action.run 3 none), SigAction.prog (Action.run 3 none),
    SigAction.prog (Action.run 3 none), SigAction.prog (Action.run 3 none),
    SigAction.prog (Action.run 3 none),
    SigAction.handler 0, SigAction.handler 0, SigAction.receive]

/-- A schedule: a bound signal is delivered again; the second handler
invocation's `FinishAsap` (goroutine 4) runs to its end, then the handler
returns from `FinishAsap` and executes `close(st)`. -/
def secondDelivery (sig : Signal) : List SigAction :=
  [SigAction.deliver sig,
    SigAction.prog (Action.run 4 none), SigAction.prog (Action.run 4 none),
    SigAction.prog (Action.run 4 none), SigAction.prog (Action.run 4 none),
    SigAction.prog (Action.run 4 none), SigAction.prog (Action.run 4 none),
    SigAction.handler 1, SigAction.handler 1]

/-- What is observed of a program: the closers `Close` was called on, the
number of release passes, whether `st` is closed, the handler invocations,
whether the receive returned, and whether the process ended in a panic. -/
def Program.observe (p : Program) :
    List Res × Nat × Bool × List HandlerPc × Bool × Bool :=
  (closes p.s.trace, passes p.s.trace, p.st, p.handlers, p.received, p.crashed)

/-! # Theorems -/

/-! ## The release pass of one call -/

theorem closes_releasePass {σ : Type} (env : Env σ) (errf : Fn) (cl : List Res) (w : σ) :
    closes (releasePass env errf cl w).1 = cl := by
  induction cl generalizing w with
  | nil => rfl
  | cons cc rest ih =>
    unfold releasePass
    split <;> simp [closes, ih]

theorem sinks_releasePass {σ : Type} (env : Env σ) (errf : Fn) (cl : List Res) (w : σ) :
    sinks (releasePass env errf cl w).1 = failures (releasePass env errf cl w).1 := by
  induction cl generalizing w with
  | nil => rfl
  | cons cc rest ih =>
    unfold releasePass
    split <;> simp [sinks, failures, ih]

theorem sinkFns_releasePass {σ : Type} (env : Env σ) (errf : Fn) (cl : List Res) (w : σ) :
    ∀ f ∈ sinkFns (releasePass env errf cl w).1, f = errf := by
  induction cl generalizing w with
  | nil => intro f hf; simp [releasePass, sinkFns] at hf
  | cons cc rest ih =>
    unfold releasePass
    split
    · simpa [sinkFns] using ih _
    · intro f hf
      simp only [sinkFns, List.mem_cons] at hf
      rcases hf with hf | hf
      · exact hf
      · exact ih _ f hf

theorem closeRets_releasePass {σ : Type} (env : Env σ) (errf : Fn) (cl : List Res) (w : σ) :
    (closeRets (releasePass env errf cl w).1).length = cl.length := by
  induction cl generalizing w with
  | nil => rfl
  | cons cc rest ih =>
    unfold releasePass
    split <;> simp [closeRets, ih]

theorem releasePass_expected {σ : Type} (env : Env σ) (errf : Fn) (cl : List Res) (w : σ) :
    (releasePass env errf cl w).1
      = expected errf cl (closeRets (releasePass env errf cl w).1) := by
  induction cl generalizing w with
  | nil => rfl
  | cons cc rest ih =>
    unfold releasePass
    split
    · simp only [closeRets, expected, iterEvents, List.singleton_append, List.cons.injEq,
        true_and]
      exact ih _
    · simp only [closeRets, expected, iterEvents, List.cons_append, List.nil_append,
        List.cons.injEq, true_and]
      exact ih _

theorem passes_releasePass {σ : Type} (env : Env σ) (errf : Fn) (cl : List Res) (w : σ) :
    passes (releasePass env errf cl w).1 = 0 := by
  induction cl generalizing w with
  | nil => rfl
  | cons cc rest ih =>
    unfold releasePass
    split <;> simp [passes, ih]

theorem FinishAsap_eq {σ : Type} (env : Env σ) (c : Conductor) (w : σ)
    (hw : c.writer = false) (hr : c.readers = 0) (hg : c.wg = 0) :
    FinishAsap env c w
      = some (c, Event.pass c.cl :: (releasePass env c.errf c.cl w).1,
          (releasePass env c.errf c.cl w).2) := by
  cases c
  simp_all [FinishAsap]

/-! ## Lists of goroutines -/

theorem countP_split {α : Type} (p : α → Bool) :
    ∀ (l : List α) (i : Nat) (a : α), l[i]? = some a →
      l.countP p = (l.eraseIdx i).countP p + (p a).toNat := by
  intro l
  induction l with
  | nil => intro i a h; simp at h
  | cons x xs ih =>
    intro i a h
    cases i with
    | zero =>
      simp only [List.getElem?_cons_zero, Option.some.injEq] at h
      subst h
      cases hp : p x <;> simp [List.countP_cons, hp]
    | succ n =>
      simp only [List.getElem?_cons_succ] at h
      have := ih n a h
      simp only [List.eraseIdx_cons_succ, List.countP_cons]
      omega

theorem countP_set_split {α : Type} (p : α → Bool) :
    ∀ (l : List α) (i : Nat) (a x : α), l[i]? = some a →
      (l.set i x).countP p = (l.eraseIdx i).countP p + (p x).toNat := by
  intro l
  induction l with
  | nil => intro i a x h; simp at h
  | cons y ys ih =>
    intro i a x h
    cases i with
    | zero =>
      cases hp : p x <;> simp [List.countP_cons, hp]
    | succ n =>
      simp only [List.getElem?_cons_succ] at h
      have := ih n a x h
      simp only [List.set_cons_succ, List.eraseIdx_cons_succ, List.countP_cons]
      omega

theorem mem_set_split {α : Type} :
    ∀ (l : List α) (i : Nat) (x q : α), q ∈ l.set i x → q = x ∨ q ∈ l.eraseIdx i := by
  intro l
  induction l with
  | nil => intro i x q h; simp at h
  | cons y ys ih =>
    intro i x q h
    cases i with
    | zero =>
      simp only [List.set_cons_zero, List.mem_cons] at h
      simpa using h
    | succ n =>
      simp only [List.set_cons_succ, List.mem_cons] at h
      rcases h with h | h
      · right; simp [h]
      · rcases ih n x q h with h1 | h1
        · left; exact h1
        · right; simp [h1]

theorem countP_zero_of_mem {α : Type} (p : α → Bool) (l : List α) (h : l.countP p = 0)
    (q : α) (hq : q ∈ l) : p q = false := by
  rw [List.countP_eq_zero] at h
  simpa using h q hq

theorem countP_pos_of_mem {α : Type} (p : α → Bool) (l : List α) (q : α) (hq : q ∈ l)
    (hp : p q = true) : 1 ≤ l.countP p :=
  List.countP_pos_iff.mpr ⟨q, hq, hp⟩


/-! ## Traces -/

theorem adds_append (t e : List Event) : adds (t ++ e) = adds t + adds e := by
  induction t with
  | nil => simp [adds]
  | cons x xs ih => cases x <;> simp [adds, ih]; omega

theorem dones_append (t e : List Event) : dones (t ++ e) = dones t + dones e := by
  induction t with
  | nil => simp [dones]
  | cons x xs ih => cases x <;> simp [dones, ih]; omega

theorem closes_append (t e : List Event) : closes (t ++ e) = closes t ++ closes e := by
  induction t with
  | nil => simp [closes]
  | cons x xs ih => cases x <;> simp [closes, ih]

theorem snaps_append (t e : List Event) : snaps (t ++ e) = snaps t ++ snaps e := by
  induction t with
  | nil => simp [snaps]
  | cons x xs ih => cases x <;> simp [snaps, ih]

/-! ## One statement -/

theorem exec_readers {ret : Option Err} {c : Conductor} {pc : Pc} {l : Local}
    (h : exec ret c pc = some l) (hr : pc.readLocked = true → 1 ≤ c.readers) :
    l.c.readers + pc.readLocked.toNat = c.readers + l.pc.readLocked.toNat
      ∧ l.spawn.countP Pc.readLocked = 0 := by
  cases pc with
  | finLoop rest =>
    cases rest <;> cases ret <;> simp only [exec, Option.some.injEq] at h <;> subst h <;>
      simp [Pc.readLocked]
  | _ =>
    simp only [exec] at h
    try split at h
    all_goals simp_all [Pc.readLocked]
    all_goals subst h
    all_goals simp [Pc.readLocked]
    all_goals omega

theorem exec_writer {ret : Option Err} {c : Conductor} {pc : Pc} {l : Local}
    (h : exec ret c pc = some l) (hw : pc.writeLocked = true → c.writer = true) :
    l.c.writer.toNat + pc.writeLocked.toNat = c.writer.toNat + l.pc.writeLocked.toNat
      ∧ l.spawn.countP Pc.writeLocked = 0 := by
  cases pc with
  | finLoop rest =>
    cases rest <;> cases ret <;> simp only [exec, Option.some.injEq] at h <;> subst h <;>
      simp [Pc.writeLocked]
  | _ =>
    simp only [exec] at h
    try split at h
    all_goals simp_all [Pc.writeLocked]
    all_goals subst h
    all_goals simp_all [Pc.writeLocked]

theorem exec_excl {ret : Option Err} {c : Conductor} {pc : Pc} {l : Local}
    (h : exec ret c pc = some l) (he : c.writer = true → c.readers = 0)
    (hr : pc.readLocked = true → c.writer = false) :
    l.c.writer = true → l.c.readers = 0 := by
  cases pc with
  | finLoop rest =>
    cases rest <;> cases ret <;> simp only [exec, Option.some.injEq] at h <;> subst h <;>
      exact he
  | _ =>
    simp only [exec] at h
    try split at h
    all_goals simp_all [Pc.readLocked]
    all_goals subst h
    all_goals simp_all

theorem exec_wg {ret : Option Err} {c : Conductor} {pc : Pc} {l : Local}
    (h : exec ret c pc = some l) :
    l.c.wg + (pc.live.toNat : Int)
        = c.wg + (l.pc.live.toNat : Int) + (l.spawn.countP Pc.live : Int)
      ∧ l.c.wg + (dones l.ev : Int) = c.wg + (adds l.ev : Int)
      ∧ (pc.readLocked = false → pc.live = false → l.c.wg = c.wg) := by
  cases pc with
  | finLoop rest =>
    cases rest <;> cases ret <;> simp only [exec, Option.some.injEq] at h <;> subst h <;>
      simp [Pc.live, adds, dones]
  | _ =>
    simp only [exec] at h
    try split at h
    all_goals simp_all [Pc.live, Pc.readLocked]
    all_goals subst h
    all_goals simp [Pc.live, adds, dones]
    all_goals omega

theorem exec_drained {ret : Option Err} {c : Conductor} {pc : Pc} {l : Local}
    (h : exec ret c pc = some l) (hd : pc.drained = true → c.wg = 0) :
    (l.pc.drained = true → l.c.wg = 0) ∧ (∀ q ∈ l.spawn, q.drained = false) := by
  cases pc with
  | finLoop rest =>
    cases rest <;> cases ret <;> simp only [exec, Option.some.injEq] at h <;> subst h <;>
      simp_all [Pc.drained]
  | _ =>
    simp only [exec] at h
    try split at h
    all_goals simp_all [Pc.drained]
    all_goals subst h
    all_goals simp_all [Pc.drained]

theorem exec_frame {ret : Option Err} {c : Conductor} {pc : Pc} {l : Local}
    (h : exec ret c pc = some l) :
    l.c.errf = c.errf ∧ (pc.readLocked = false → l.c.cl = c.cl) := by
  cases pc with
  | finLoop rest =>
    cases rest <;> cases ret <;> simp only [exec, Option.some.injEq] at h <;> subst h <;>
      simp
  | _ =>
    simp only [exec] at h
    try split at h
    all_goals simp_all [Pc.readLocked]
    all_goals subst h
    all_goals simp

/-! ## The invariant -/

theorem step_run {s s1 : State} {tid : Nat} {ret : Option Err}
    (h : step s (Action.run tid ret) = some s1) :
    ∃ pc l, s.threads[tid]? = some pc ∧ exec ret s.c pc = some l ∧
      s1 = ⟨l.c, s.threads.set tid l.pc ++ l.spawn, s.trace ++ l.ev⟩ := by
  simp only [step] at h
  split at h
  · exact absurd h (by simp)
  · rename_i pc hpc
    split at h
    · exact absurd h (by simp)
    · rename_i l hl
      simp only [Option.some.injEq] at h
      exact ⟨pc, l, hpc, hl, h.symm⟩

theorem writer_of_toNat_pos {b : Bool} (h : 1 ≤ b.toNat) : b = true := by
  cases b
  · simp at h
  · rfl

theorem Pc.writeLocked_of_drained {pc : Pc} (h : pc.drained = true) : pc.writeLocked = true := by
  cases pc <;> simp_all [Pc.drained, Pc.writeLocked]

theorem Inv.writer_of_mem {s : State} (hi : Inv s) {q : Pc} (hq : q ∈ s.threads)
    (hw : q.writeLocked = true) : s.c.writer = true := by
  apply writer_of_toNat_pos
  rw [hi.writer]
  exact countP_pos_of_mem _ _ q hq hw

theorem Inv.not_readLocked {s : State} (hi : Inv s) (hw : s.c.writer = true) {q : Pc}
    (hq : q ∈ s.threads) : q.readLocked = false := by
  have h0 := hi.excl hw
  rw [hi.readers] at h0
  exact countP_zero_of_mem _ _ h0 q hq

theorem Inv.not_live {s : State} (hi : Inv s) (hz : s.c.wg = 0) {q : Pc}
    (hq : q ∈ s.threads) : q.live = false := by
  have h0 := hi.wg
  rw [hz] at h0
  have h1 : s.threads.countP Pc.live = 0 := by omega
  exact countP_zero_of_mem _ _ h1 q hq

theorem inv_init (errf : Fn) : Inv (init errf) := by
  constructor <;> simp [init, NewConductor, adds, dones]

theorem inv_run {s : State} {tid : Nat} {ret : Option Err} {pc : Pc} {l : Local}
    (hi : Inv s) (hpc : s.threads[tid]? = some pc) (hl : exec ret s.c pc = some l) :
    Inv ⟨l.c, s.threads.set tid l.pc ++ l.spawn, s.trace ++ l.ev⟩ := by
  have hmem : pc ∈ s.threads := List.getElem?_mem hpc
  have hR := countP_split Pc.readLocked s.threads tid pc hpc
  have hW := countP_split Pc.writeLocked s.threads tid pc hpc
  have hL := countP_split Pc.live s.threads tid pc hpc
  have hr : pc.readLocked = true → 1 ≤ s.c.readers := by
    intro h
    rw [hi.readers]
    exact countP_pos_of_mem _ _ pc hmem h
  have hw : pc.writeLocked = true → s.c.writer = true := hi.writer_of_mem hmem
  obtain ⟨er, ers⟩ := exec_readers hl hr
  obtain ⟨ew, ews⟩ := exec_writer hl hw
  obtain ⟨eg, ec, ef⟩ := exec_wg hl
  obtain ⟨ed, eds⟩ := exec_drained hl (hi.drained pc hmem)
  have hreaders := hi.readers
  have hwriter := hi.writer
  have hwg := hi.wg
  have hcount := hi.count
  constructor
  · simp only [List.countP_append, countP_set_split _ _ _ _ _ hpc, ers]
    omega
  · simp only [List.countP_append, countP_set_split _ _ _ _ _ hpc, ews]
    omega
  · apply exec_excl hl hi.excl
    intro h
    cases hwr : s.c.writer
    · rfl
    · have := hi.excl hwr
      have := hr h
      omega
  · simp only [List.countP_append, countP_set_split _ _ _ _ _ hpc]
    push_cast
    omega
  · intro q hq hqd
    simp only [List.mem_append] at hq
    rcases hq with hq | hq
    · rcases mem_set_split _ _ _ _ hq with hq | hq
      · subst hq
        exact ed hqd
      · have hq1 : q ∈ s.threads := List.mem_of_mem_eraseIdx hq
        have hz : s.c.wg = 0 := hi.drained q hq1 hqd
        have hwr : s.c.writer = true := hi.writer_of_mem hq1 (Pc.writeLocked_of_drained hqd)
        rw [ef (hi.not_readLocked hwr hmem) (hi.not_live hz hmem)]
        exact hz
    · rw [eds q hq] at hqd
      exact absurd hqd (by simp)
  · simp only [adds_append, dones_append]
    push_cast
    omega

theorem inv_step {s s1 : State} {a : Action} (hi : Inv s) (h : step s a = some s1) :
    Inv s1 := by
  have hreaders := hi.readers
  have hwriter := hi.writer
  have hwg := hi.wg
  have hcount := hi.count
  cases a with
  | run tid ret =>
    obtain ⟨pc, l, hpc, hl, rfl⟩ := step_run h
    exact inv_run hi hpc hl
  | _ =>
    simp only [step, Option.some.injEq] at h
    subst h
    constructor
    · simpa [List.countP_append, List.countP_cons, Pc.readLocked] using hreaders
    · simpa [List.countP_append, List.countP_cons, Pc.writeLocked] using hwriter
    · exact hi.excl
    · simpa [List.countP_append, List.countP_cons, Pc.live] using hwg
    · intro q hq hqd
      simp only [List.mem_append, List.mem_singleton] at hq
      rcases hq with hq | hq
      · exact hi.drained q hq hqd
      · subst hq
        simp [Pc.drained] at hqd
    · exact hcount

theorem inv_of_reachable {errf : Fn} {s : State} (h : Reachable errf s) : Inv s := by
  induction h with
  | start => exact inv_init errf
  | next a _ hs ih => exact inv_step ih hs

theorem reachable_runs {errf : Fn} {s : State} (h : Reachable errf s) :
    ∀ (acts : List Action) (s1 : State), runs s acts = some s1 → Reachable errf s1 := by
  intro acts
  induction acts generalizing s with
  | nil =>
    intro s1 h1
    simp only [runs, Option.some.injEq] at h1
    exact h1 ▸ h
  | cons a rest ih =>
    intro s1 h1
    simp only [runs] at h1
    split at h1
    · exact absurd h1 (by simp)
    · rename_i s2 h2
      exact ih (Reachable.next a h h2) s1 h1

theorem atClose_reachable : Reachable 0 atClose :=
  reachable_runs Reachable.start toClose atClose rfl

theorem atSpawn_reachable : Reachable 0 atSpawn :=
  reachable_runs Reachable.start toSpawn atSpawn rfl

theorem atWait_reachable : Reachable 0 atWait :=
  reachable_runs Reachable.start toWait atWait rfl

/-! ## The wait group counter -/

theorem exec_wg_cases {ret : Option Err} {c : Conductor} {pc : Pc} {l : Local}
    (h : exec ret c pc = some l) :
    (pc = Pc.goAdd → l.c.wg = c.wg + 1 ∧ l.pc = Pc.goSpawn ∧ l.spawn = []) ∧
    (pc = Pc.goSpawn → l.c.wg = c.wg ∧ l.pc = Pc.goRUnlock ∧ l.spawn = [Pc.taskRun]) ∧
    (pc = Pc.taskRun → l.c.wg = c.wg ∧ l.pc = Pc.taskDone) ∧
    (pc = Pc.taskDone → l.c.wg = c.wg - 1 ∧ l.pc = Pc.ret) ∧
    (pc ≠ Pc.goAdd → pc ≠ Pc.taskDone → l.c.wg = c.wg) := by
  cases pc with
  | finLoop rest =>
    cases rest <;> cases ret <;> simp only [exec, Option.some.injEq] at h <;> subst h <;>
      simp
  | _ =>
    simp only [exec] at h
    try split at h
    all_goals simp_all
    all_goals subst h
    all_goals simp_all

theorem getElem?_set_append {α : Type} (l m : List α) (i : Nat) (a x : α)
    (h : l[i]? = some a) : (l.set i x ++ m)[i]? = some x := by
  have hi : i < l.length := by
    rcases Nat.lt_or_ge i l.length with h1 | h1
    · exact h1
    · rw [List.getElem?_eq_none h1] at h
      exact absurd h (by simp)
  rw [List.getElem?_append_left (by simpa using hi)]
  simp [List.getElem?_set, hi]

/-- C10: in every reachable state the wait group counter equals the number of
`c.wg.Add(1)` calls made by `Go` minus the number of `c.wg.Done()` calls made
by spawned goroutines, equals the number of goroutines for which `Add` was done
and `Done` was not, and is not negative.  `Go` adds exactly one before it
starts the goroutine, the goroutine subtracts exactly one after `f()` returned
and then ends, and no other statement and no call changes the counter. -/
theorem live_count_balance (errf : Fn) (s : State) (h : Reachable errf s) :
    s.c.wg = (adds s.trace : Int) - (dones s.trace : Int) ∧
    0 ≤ s.c.wg ∧
    s.c.wg = (s.threads.countP Pc.live : Int) ∧
    (∀ a s1, step s a = some s1 →
      (∀ tid ret, a = Action.run tid ret → s.threads[tid]? = some Pc.goAdd →
        s1.c.wg = s.c.wg + 1 ∧ s1.threads[tid]? = some Pc.goSpawn ∧
        s1.threads.length = s.threads.length) ∧
      (∀ tid ret, a = Action.run tid ret → s.threads[tid]? = some Pc.goSpawn →
        s1.c.wg = s.c.wg ∧ s1.threads = s.threads.set tid Pc.goRUnlock ++ [Pc.taskRun]) ∧
      (∀ tid ret, a = Action.run tid ret → s.threads[tid]? = some Pc.taskRun →
        s1.c.wg = s.c.wg ∧ s1.threads[tid]? = some Pc.taskDone) ∧
      (∀ tid ret, a = Action.run tid ret → s.threads[tid]? = some Pc.taskDone →
        s1.c.wg = s.c.wg - 1 ∧ s1.threads[tid]? = some Pc.ret) ∧
      ((∀ tid ret, a = Action.run tid ret →
          s.threads[tid]? ≠ some Pc.goAdd ∧ s.threads[tid]? ≠ some Pc.taskDone) →
        s1.c.wg = s.c.wg)) := by
  have hi := inv_of_reachable h
  refine ⟨hi.count, ?_, hi.wg, ?_⟩
  · rw [hi.wg]
    exact Int.ofNat_nonneg _
  · intro a s1 hs
    cases a with
    | run tid ret =>
      obtain ⟨pc, l, hpc, hl, rfl⟩ := step_run hs
      obtain ⟨h1, h2, h3, h4, h5⟩ := exec_wg_cases hl
      refine ⟨?_, ?_, ?_, ?_, ?_⟩
      · intro tid1 ret1 ha hp
        cases ha
        rw [hpc, Option.some.injEq] at hp
        obtain ⟨e1, e2, e3⟩ := h1 hp
        refine ⟨e1, ?_, ?_⟩
        · rw [← e2]
          exact getElem?_set_append _ _ _ _ _ hpc
        · simp [e3]
      · intro tid1 ret1 ha hp
        cases ha
        rw [hpc, Option.some.injEq] at hp
        obtain ⟨e1, e2, e3⟩ := h2 hp
        exact ⟨e1, by rw [e2, e3]⟩
      · intro tid1 ret1 ha hp
        cases ha
        rw [hpc, Option.some.injEq] at hp
        obtain ⟨e1, e2⟩ := h3 hp
        refine ⟨e1, ?_⟩
        rw [← e2]
        exact getElem?_set_append _ _ _ _ _ hpc
      · intro tid1 ret1 ha hp
        cases ha
        rw [hpc, Option.some.injEq] at hp
        obtain ⟨e1, e2⟩ := h4 hp
        refine ⟨e1, ?_⟩
        rw [← e2]
        exact getElem?_set_append _ _ _ _ _ hpc
      · intro hne
        obtain ⟨n1, n2⟩ := hne tid ret rfl
        rw [hpc] at n1 n2
        exact h5 (fun e => n1 (by rw [e])) (fun e => n2 (by rw [e]))
    | _ =>
      simp only [step, Option.some.injEq] at hs
      subst hs
      simp

theorem live_count_balance_witness :
    Reachable 0 atSpawn ∧
    atSpawn.c.wg = (adds atSpawn.trace : Int) - (dones atSpawn.trace : Int) ∧
    0 ≤ atSpawn.c.wg ∧
    atSpawn.c.wg = (atSpawn.threads.countP Pc.live : Int) :=
  ⟨atSpawn_reachable, (live_count_balance 0 atSpawn atSpawn_reachable).1,
    (live_count_balance 0 atSpawn atSpawn_reachable).2.1,
    (live_count_balance 0 atSpawn atSpawn_reachable).2.2.1⟩

/-! ## Drain before release -/

theorem exec_events {ret : Option Err} {c : Conductor} {pc : Pc} {l : Local}
    (h : exec ret c pc = some l) :
    (pc.closing = false → closes l.ev = []) ∧
    (pc ≠ Pc.finRange → snaps l.ev = []) ∧
    (pc = Pc.finRange → snaps l.ev = [c.cl] ∧ closes l.ev = [] ∧ l.pc = Pc.finLoop c.cl) := by
  cases pc with
  | finLoop rest =>
    cases rest <;> cases ret <;> simp only [exec, Option.some.injEq] at h <;> subst h <;>
      simp [Pc.closing, closes, snaps]
  | _ =>
    simp only [exec] at h
    try split at h
    all_goals simp_all [Pc.closing]
    all_goals subst h
    all_goals simp [closes, snaps]

theorem Pc.live_of_running {pc : Pc} (h : pc.live = false) : pc.running = false := by
  cases pc <;> simp_all [Pc.live, Pc.running]

theorem Pc.drained_of_closing {pc : Pc} (h : pc.closing = true) : pc.drained = true := by
  cases pc <;> simp_all [Pc.drained, Pc.closing]

theorem Pc.drained_of_sinking {pc : Pc} (h : pc.sinking = true) : pc.drained = true := by
  cases pc <;> simp_all [Pc.drained, Pc.sinking]

theorem Inv.balanced {s : State} (hi : Inv s) (hz : s.c.wg = 0) :
    dones s.trace = adds s.trace := by
  have := hi.count
  omega

theorem Inv.idle {s : State} (hi : Inv s) (hz : s.c.wg = 0) :
    ∀ q ∈ s.threads, q.live = false ∧ q.running = false :=
  fun _ hq => ⟨hi.not_live hz hq, Pc.live_of_running (hi.not_live hz hq)⟩

theorem close_step_closing {s s1 : State} {a : Action} (hs : step s a = some s1)
    (hne : closes s1.trace ≠ closes s.trace) :
    ∃ tid ret pc, a = Action.run tid ret ∧ s.threads[tid]? = some pc ∧ pc.closing = true := by
  cases a with
  | run tid ret =>
    obtain ⟨pc, l, hpc, hl, rfl⟩ := step_run hs
    have hcl : pc.closing = true := by
      cases hc : pc.closing
      · exact absurd (by simp [closes_append, (exec_events hl).1 hc]) hne
      · rfl
    exact ⟨tid, ret, pc, rfl, hpc, hcl⟩
  | _ =>
    simp only [step, Option.some.injEq] at hs
    subst hs
    exact absurd rfl hne

/-- C3: in every reachable state, whenever some call of `FinishAsap` is about
to call `Close`, and whenever a step does call `Close`, the wait group counter
is zero, every `Add` has been matched by a `Done`, and no spawned goroutine is
running or pending, however many were spawned.  A step that calls `Close` is a
step of a goroutine standing at `cc.Close()`.  If nothing was ever spawned,
`c.wg.Wait()` proceeds at once. -/
theorem close_only_after_drain (errf : Fn) (s : State) (h : Reachable errf s) :
    (∀ pc ∈ s.threads, pc.closing = true →
      s.c.wg = 0 ∧ dones s.trace = adds s.trace ∧
      ∀ q ∈ s.threads, q.live = false ∧ q.running = false) ∧
    (∀ a s1, step s a = some s1 → closes s1.trace ≠ closes s.trace →
      s.c.wg = 0 ∧ dones s.trace = adds s.trace ∧
      (∀ q ∈ s.threads, q.live = false ∧ q.running = false) ∧
      ∃ tid ret pc, a = Action.run tid ret ∧ s.threads[tid]? = some pc ∧ pc.closing = true) ∧
    (∀ tid ret, s.threads[tid]? = some Pc.finWait → adds s.trace = 0 →
      ∃ s1, step s (Action.run tid ret) = some s1 ∧ s1.threads[tid]? = some Pc.finRange ∧
        s1.c = s.c) := by
  have hi := inv_of_reachable h
  have key : ∀ pc ∈ s.threads, pc.closing = true →
      s.c.wg = 0 ∧ dones s.trace = adds s.trace ∧
      ∀ q ∈ s.threads, q.live = false ∧ q.running = false := by
    intro pc hpc hcl
    have hz := hi.drained pc hpc (Pc.drained_of_closing hcl)
    exact ⟨hz, hi.balanced hz, hi.idle hz⟩
  refine ⟨key, ?_, ?_⟩
  · intro a s1 hs hne
    obtain ⟨tid, ret, pc, ha, hpc, hcl⟩ := close_step_closing hs hne
    obtain ⟨k1, k2, k3⟩ := key pc (List.getElem?_mem hpc) hcl
    exact ⟨k1, k2, k3, tid, ret, pc, ha, hpc, hcl⟩
  · intro tid ret hpc h0
    have hz : s.c.wg = 0 := by
      have h1 := hi.count
      have h2 := hi.wg
      omega
    refine ⟨⟨s.c, s.threads.set tid Pc.finRange ++ [], s.trace ++ []⟩, ?_, ?_, rfl⟩
    · simp [step, hpc, exec, hz]
    · exact getElem?_set_append _ _ _ _ _ hpc

theorem close_only_after_drain_witness :
    Reachable 0 atClose ∧ Pc.finLoop [7] ∈ atClose.threads ∧
    (Pc.finLoop [7]).closing = true ∧
    atClose.c.wg = 0 ∧ dones atClose.trace = adds atClose.trace ∧
    Reachable 0 atWait ∧ atWait.threads[0]? = some Pc.finWait ∧ adds atWait.trace = 0 ∧
    ∃ s1, step atWait (Action.run 0 none) = some s1 ∧ s1.threads[0]? = some Pc.finRange ∧
      s1.c = atWait.c :=
  ⟨atClose_reachable, by decide, rfl,
    ((close_only_after_drain 0 atClose atClose_reachable).1 (Pc.finLoop [7]) (by decide) rfl).1,
    ((close_only_after_drain 0 atClose atClose_reachable).1 (Pc.finLoop [7]) (by decide) rfl).2.1,
    atWait_reachable, rfl, rfl,
    (close_only_after_drain 0 atWait atWait_reachable).2.2 0 none rfl rfl⟩

/-! ## The guard during shutdown -/

theorem exec_guard {ret : Option Err} {c : Conductor} {pc : Pc} {l : Local}
    (h : exec ret c pc = some l) (hw : c.writer = true) (hp : pc.readLocked = false) :
    l.pc.readLocked = false ∧ (∀ q ∈ l.spawn, q.readLocked = false) ∧
    pc.inGo = false ∧ pc.inRegisterClosers = false := by
  cases pc with
  | finLoop rest =>
    cases rest <;> cases ret <;> simp only [exec, Option.some.injEq] at h <;> subst h <;>
      simp [Pc.readLocked, Pc.inGo, Pc.inRegisterClosers]
  | _ =>
    simp only [exec] at h
    try split at h
    all_goals simp_all [Pc.readLocked, Pc.inGo, Pc.inRegisterClosers]
    all_goals subst h
    all_goals simp_all [Pc.readLocked]

theorem exec_lock {ret : Option Err} {c : Conductor} {l : Local}
    (h : exec ret c Pc.finLock = some l) :
    c.writer = false ∧ c.readers = 0 ∧ l.c.writer = true := by
  simp only [exec] at h
  split at h
  · rename_i hc
    simp only [Option.some.injEq] at h
    subst h
    exact ⟨hc.1, hc.2, rfl⟩
  · exact absurd h (by simp)

/-- C8 as stated fails: here `FinishAsap` is about to call `Close` and holds
the mutex exclusively. -/
theorem close_runs_under_lock :
    ¬ (∀ s, Reachable 0 s → ∀ pc ∈ s.threads, pc.closing = true → s.c.writer = false) := by
  intro hall
  have h := hall atClose atClose_reachable (Pc.finLoop [7]) (by decide) rfl
  exact absurd h (by decide)

/-- C8, amended: in every reachable state in which a call of `FinishAsap` is
about to call `Close` or the error callback, the mutex is held exclusively (by
that call, since line 60), there is no reader, no call of `Go` or
`RegisterClosers` is inside its guarded section, every such call standing at
`RLock` is blocked, and the wait group counter is zero with no spawned
goroutine left. -/
theorem release_holds_guard (errf : Fn) (s : State) (h : Reachable errf s) :
    ∀ pc ∈ s.threads, (pc.closing = true ∨ pc.sinking = true) →
      s.c.writer = true ∧ s.c.readers = 0 ∧ s.c.wg = 0 ∧
      (∀ q ∈ s.threads, q.guarded = false ∧ q.live = false) ∧
      (∀ tid ret q, s.threads[tid]? = some q →
        (q = Pc.goRLock ∨ ∃ cl, q = Pc.regRLock cl) → step s (Action.run tid ret) = none) := by
  have hi := inv_of_reachable h
  intro pc hpc hcs
  have hd : pc.drained = true := by
    rcases hcs with hc | hc
    · exact Pc.drained_of_closing hc
    · exact Pc.drained_of_sinking hc
  have hw : s.c.writer = true := hi.writer_of_mem hpc (Pc.writeLocked_of_drained hd)
  have hz : s.c.wg = 0 := hi.drained pc hpc hd
  refine ⟨hw, hi.excl hw, hz, ?_, ?_⟩
  · intro q hq
    exact ⟨hi.not_readLocked hw hq, hi.not_live hz hq⟩
  · intro tid ret q hq hrl
    rcases hrl with rfl | ⟨cl, rfl⟩ <;> simp [step, hq, exec, hw]

theorem release_holds_guard_witness :
    Reachable 0 atClose ∧ Pc.finLoop [7] ∈ atClose.threads ∧
    ((Pc.finLoop [7]).closing = true ∨ (Pc.finLoop [7]).sinking = true) ∧
    atClose.c.writer = true ∧ atClose.c.readers = 0 ∧ atClose.c.wg = 0 :=
  ⟨atClose_reachable, by decide, Or.inl rfl,
    (release_holds_guard 0 atClose atClose_reachable (Pc.finLoop [7]) (by decide) (Or.inl rfl)).1,
    (release_holds_guard 0 atClose atClose_reachable (Pc.finLoop [7]) (by decide) (Or.inl rfl)).2.1,
    (release_holds_guard 0 atClose atClose_reachable (Pc.finLoop [7]) (by decide)
      (Or.inl rfl)).2.2.1⟩

/-- C9: in every reachable state in which the mutex is held exclusively, which
is exactly when some call of `FinishAsap` is between its `Lock` and its
`Unlock`, no call of `Go` or `RegisterClosers` is inside its guarded section,
no statement of such a call can execute, and every step leaves `c.cl` as it was,
does not increase the wait group counter and leaves the guarded sections empty.
A call of `FinishAsap` acquires the mutex only in a state where no call of `Go`
or `RegisterClosers` is inside its guarded section. -/
theorem exclusive_section (errf : Fn) (s : State) (h : Reachable errf s) :
    (s.c.writer = true ↔ ∃ q ∈ s.threads, q.writeLocked = true) ∧
    (s.c.writer = true →
      (∀ q ∈ s.threads, q.guarded = false) ∧
      (∀ tid ret q, s.threads[tid]? = some q →
        (q.inGo = true ∨ q.inRegisterClosers = true) → step s (Action.run tid ret) = none) ∧
      (∀ a s1, step s a = some s1 →
        s1.c.cl = s.c.cl ∧ s1.c.wg ≤ s.c.wg ∧ ∀ q ∈ s1.threads, q.guarded = false)) ∧
    (∀ tid ret s1, s.threads[tid]? = some Pc.finLock →
      step s (Action.run tid ret) = some s1 →
      (∀ q ∈ s.threads, q.guarded = false) ∧ s.c.writer = false ∧ s1.c.writer = true) := by
  have hi := inv_of_reachable h
  refine ⟨⟨?_, ?_⟩, ?_, ?_⟩
  · intro hw
    have h1 := hi.writer
    rw [hw] at h1
    have h2 : 0 < s.threads.countP Pc.writeLocked := by
      simp only [Bool.toNat_true] at h1
      omega
    exact List.countP_pos_iff.mp h2
  · rintro ⟨q, hq, hqw⟩
    exact hi.writer_of_mem hq hqw
  · intro hw
    have hng : ∀ q ∈ s.threads, q.guarded = false := fun q hq => hi.not_readLocked hw hq
    refine ⟨hng, ?_, ?_⟩
    · intro tid ret q hq hin
      cases hx : exec ret s.c q with
      | none => simp [step, hq, hx]
      | some l =>
        have hg := exec_guard hx hw (hng q (List.getElem?_mem hq))
        rcases hin with hin | hin
        · rw [hg.2.2.1] at hin
          exact absurd hin (by simp)
        · rw [hg.2.2.2] at hin
          exact absurd hin (by simp)
    · intro a s1 hs
      cases a with
      | run tid ret =>
        obtain ⟨pc, l, hpc, hl, rfl⟩ := step_run hs
        have hmem := List.getElem?_mem hpc
        have hp := hng pc hmem
        have hg := exec_guard hl hw hp
        obtain ⟨_, _, _, h4, h5⟩ := exec_wg_cases hl
        refine ⟨(exec_frame hl).2 hp, ?_, ?_⟩
        · by_cases hd : pc = Pc.taskDone
          · have := (h4 hd).1
            show l.c.wg ≤ s.c.wg
            omega
          · have hne : pc ≠ Pc.goAdd := by
              intro e
              rw [e] at hp
              exact absurd hp (by simp [Pc.guarded, Pc.readLocked])
            exact le_of_eq (h5 hne hd)
        · intro q hq
          simp only [List.mem_append] at hq
          rcases hq with hq | hq
          · rcases List.mem_or_eq_of_mem_set hq with hq | hq
            · exact hng q hq
            · rw [hq]
              exact hg.1
          · exact hg.2.1 q hq
      | _ =>
        simp only [step, Option.some.injEq] at hs
        subst hs
        refine ⟨rfl, le_refl _, ?_⟩
        intro q hq
        simp only [List.mem_append, List.mem_singleton] at hq
        rcases hq with hq | hq
        · exact hng q hq
        · subst hq
          rfl
  · intro tid ret s1 hpc hs
    obtain ⟨pc, l, hpc1, hl, rfl⟩ := step_run hs
    rw [hpc, Option.some.injEq] at hpc1
    subst hpc1
    obtain ⟨e1, e2, e3⟩ := exec_lock hl
    refine ⟨?_, e1, e3⟩
    intro q hq
    have h0 := hi.readers
    rw [e2] at h0
    exact countP_zero_of_mem _ _ h0.symm q hq

theorem exclusive_section_witness :
    Reachable 0 atClose ∧ atClose.c.writer = true ∧
    (∃ q ∈ atClose.threads, q.writeLocked = true) ∧
    step atClose (Action.callFinishAsap) = some
      { atClose with threads := atClose.threads ++ [Pc.finLock] } ∧
    ({ atClose with threads := atClose.threads ++ [Pc.finLock] } : State).c.cl = atClose.c.cl :=
  ⟨atClose_reachable, rfl, (exclusive_section 0 atClose atClose_reachable).1.mp rfl, rfl,
    (((exclusive_section 0 atClose atClose_reachable).2.1 rfl).2.2
      Action.callFinishAsap _ rfl).1⟩

/-! ## Registration -/

theorem step_run_eq {s : State} {tid : Nat} {ret : Option Err} {pc : Pc} {l : Local}
    (hpc : s.threads[tid]? = some pc) (hl : exec ret s.c pc = some l) :
    step s (Action.run tid ret)
      = some ⟨l.c, s.threads.set tid l.pc ++ l.spawn, s.trace ++ l.ev⟩ := by
  simp [step, hpc, hl]

theorem runs_append (s : State) (a b : List Action) :
    runs s (a ++ b) = (runs s a).bind (fun s1 => runs s1 b) := by
  induction a generalizing s with
  | nil => rfl
  | cons x xs ih =>
    simp only [List.cons_append, runs]
    cases step s x with
    | none => rfl
    | some s1 => exact ih s1

theorem runs_cons_of_step {s s1 : State} {a : Action} (h : step s a = some s1)
    (rest : List Action) : runs s (a :: rest) = runs s1 rest := by
  simp [runs, h]

theorem runs_registerCall (s : State) (tid : Nat) (cl : List Res)
    (hpc : s.threads[tid]? = some (Pc.regRLock cl)) (hw : s.c.writer = false) :
    runs s (registerCall tid)
      = some { c := { s.c with cl := s.c.cl ++ cl }, threads := s.threads.set tid Pc.ret,
               trace := s.trace } := by
  have e0 : exec none s.c (Pc.regRLock cl)
      = some ⟨{ s.c with readers := s.c.readers + 1 }, Pc.regRead cl, [], []⟩ := by
    simp [exec, hw]
  have h1 := getElem?_set_append s.threads [] tid _ (Pc.regRead cl) hpc
  have h2 := getElem?_set_append _ [] tid _ (Pc.regWrite s.c.cl cl) h1
  have h3 := getElem?_set_append _ [] tid _ Pc.regRUnlock h2
  rw [registerCall, runs_cons_of_step (step_run_eq hpc e0),
    runs_cons_of_step (@step_run_eq ⟨_, _, _⟩ tid none _ _ h1 rfl),
    runs_cons_of_step (@step_run_eq ⟨_, _, _⟩ tid none _ _ h2 rfl),
    runs_cons_of_step (@step_run_eq ⟨_, _, _⟩ tid none _ _ h3 rfl)]
  simp [runs, List.set_set]

theorem runs_registerSeq (cls : List (List Res)) :
    ∀ s : State, s.c.writer = false →
      runs s (registerSeq s.threads.length cls)
        = some { c := { s.c with cl := s.c.cl ++ cls.flatten },
                 threads := s.threads ++ List.replicate cls.length Pc.ret,
                 trace := s.trace } := by
  induction cls with
  | nil => intro s _; simp [registerSeq, runs]
  | cons cl rest ih =>
    intro s hw
    have hcall : step s (Action.callRegisterClosers cl)
        = some { s with threads := s.threads ++ [Pc.regRLock cl] } := rfl
    have hpc : (s.threads ++ [Pc.regRLock cl])[s.threads.length]? = some (Pc.regRLock cl) := by
      simp
    rw [registerSeq, runs_cons_of_step hcall, runs_append,
      runs_registerCall ⟨s.c, s.threads ++ [Pc.regRLock cl], s.trace⟩ _ cl hpc hw]
    simp only [Option.some_bind]
    have hlen : (List.set (s.threads ++ [Pc.regRLock cl]) s.threads.length Pc.ret).length
        = s.threads.length + 1 := by simp
    have := ih { c := { s.c with cl := s.c.cl ++ cl },
                 threads := (s.threads ++ [Pc.regRLock cl]).set s.threads.length Pc.ret,
                 trace := s.trace } hw
    simp only [hlen] at this
    rw [this]
    simp [List.replicate_succ, List.set_append_right]

/-- C6: a call `RegisterClosers(cl...)` that can proceed (no writer holds the
mutex) and runs without another goroutine in between leaves `c.cl` equal to the
old slice followed by `cl`, and the wait group, the mutex, the callback and the
trace as they were; the sequential function agrees.  After successive calls
with `cl1, ..., cln` on a fresh conductor the slice is `cl1 ++ ... ++ cln`. -/
theorem RegisterClosers_appends (s : State) (tid : Nat) (cl : List Res)
    (hpc : s.threads[tid]? = some (Pc.regRLock cl)) (hw : s.c.writer = false) :
    (∃ s1, runs s (registerCall tid) = some s1 ∧
      s1.c.cl = s.c.cl ++ cl ∧ s1.c.wg = s.c.wg ∧ s1.c.errf = s.c.errf ∧
      s1.c.readers = s.c.readers ∧ s1.c.writer = s.c.writer ∧
      s1.threads = s.threads.set tid Pc.ret ∧ s1.trace = s.trace ∧
      RegisterClosers s.c cl = some s1.c) ∧
    (∀ (errf : Fn) (cls : List (List Res)),
      ∃ s1, runs (init errf) (registerSeq 0 cls) = some s1 ∧
        s1.c = { NewConductor errf with cl := cls.flatten }) := by
  constructor
  · refine ⟨_, runs_registerCall s tid cl hpc hw, rfl, rfl, rfl, rfl, rfl, rfl, rfl, ?_⟩
    simp [RegisterClosers, hw]
  · intro errf cls
    refine ⟨_, runs_registerSeq cls (init errf) rfl, ?_⟩
    simp [init, NewConductor]

theorem RegisterClosers_appends_witness :
    atRegister.threads[0]? = some (Pc.regRLock [8, 9]) ∧ atRegister.c.writer = false ∧
    ∃ s1, runs atRegister (registerCall 0) = some s1 ∧
      s1.c.cl = atRegister.c.cl ++ [8, 9] ∧ s1.c.wg = atRegister.c.wg ∧
      s1.c.errf = atRegister.c.errf ∧
      s1.c.readers = atRegister.c.readers ∧ s1.c.writer = atRegister.c.writer ∧
      s1.threads = atRegister.threads.set 0 Pc.ret ∧ s1.trace = atRegister.trace ∧
      RegisterClosers atRegister.c [8, 9] = some s1.c :=
  ⟨rfl, rfl, (RegisterClosers_appends atRegister 0 [8, 9] rfl rfl).1⟩

/-- C7 fails on the code: two calls of `RegisterClosers` that both hold the
read lock both read the empty slice, and the second assignment overwrites the
first.  Both calls have returned, the mutex is free, and closer 1 is not in
`c.cl`. -/
theorem RegisterClosers_lost_update :
    (runs (init 0) raceSched).map (fun s => (s.c.cl, s.threads, s.c.readers, s.c.writer))
      = some ([2], [Pc.ret, Pc.ret], 0, false) := by
  rfl

/-! ## Signals -/

theorem atLive_reachable : Reachable 0 atLive :=
  reachable_runs Reachable.start toLive atLive rfl

/-- C5 fails on the code.  `FinishOnSignals(15, 2)` is called in a reachable
state where closer 7 is registered and a spawned goroutine is still running.
The first delivery invokes the handler: its `FinishAsap` locks, waits while
the goroutine runs, then runs one release pass; the handler closes `st` and
returns nil, and the receive returns.  The second delivery, of the same or of
the other bound signal, invokes the handler again: a second release pass calls
`Close` on closer 7 again, and `close(st)` on the closed channel panics. -/
theorem second_delivery_repeats_and_panics :
    Reachable 0 atLive ∧
    (sigRuns (FinishOnSignals atLive [15, 2]) (lockedWhileLive 15)).map
        (fun p => sigStep p (SigAction.prog (Action.run 3 none))) = some none ∧
    (sigRuns (FinishOnSignals atLive [15, 2]) (firstDelivery 15)).map Program.observe
      = some ([7], 1, true, [HandlerPc.returned], true, false) ∧
    (sigRuns (FinishOnSignals atLive [15, 2]) (firstDelivery 15 ++ secondDelivery 15)).map
        Program.observe
      = some ([7, 7], 2, true, [HandlerPc.returned, HandlerPc.panicked], true, true) ∧
    (sigRuns (FinishOnSignals atLive [15, 2]) (firstDelivery 15 ++ secondDelivery 2)).map
        Program.observe
      = some ([7, 7], 2, true, [HandlerPc.returned, HandlerPc.panicked], true, true) :=
  ⟨atLive_reachable, rfl, rfl, rfl, rfl⟩

/-! ## One shutdown -/

theorem afterTwoPasses_reachable : Reachable 0 afterTwoPasses :=
  reachable_runs Reachable.start twoPasses afterTwoPasses rfl

theorem afterOnePass_reachable : Reachable 0 afterOnePass :=
  reachable_runs Reachable.start onePass afterOnePass rfl

theorem Pc.passInv_cl {q : Pc} {cl cl1 : List Res} {t : List Event}
    (hq : q.writeLocked = false) (h : q.passInv cl t) : q.passInv cl1 t := by
  cases q <;> simp_all [Pc.passInv, Pc.writeLocked]

theorem Pc.passInv_congr {q : Pc} {cl : List Res} {t t1 : List Event}
    (hc : closes t1 = closes t) (hs : snaps t1 = snaps t) (h : q.passInv cl t) :
    q.passInv cl t1 := by
  cases q <;> simp_all [Pc.passInv]

theorem Pc.passInv_of_plain {q : Pc} {cl : List Res} {t : List Event}
    (hs : q.shutdown = false) (hr : q.readLocked = false) : q.passInv cl t := by
  cases q <;> simp_all [Pc.passInv, Pc.shutdown, Pc.readLocked]

theorem Pc.not_readLocked_of_shutdown {q : Pc} (hs : q.shutdown = true) :
    q.readLocked = false := by
  cases q <;> simp_all [Pc.shutdown, Pc.readLocked]

theorem exec_shutdown {ret : Option Err} {c : Conductor} {pc : Pc} {l : Local}
    (h : exec ret c pc = some l) :
    l.pc.shutdown = pc.shutdown ∧ (∀ q ∈ l.spawn, q = Pc.taskRun) ∧
    (pc.shutdown = true → l.spawn = []) := by
  cases pc with
  | finLoop rest =>
    cases rest <;> cases ret <;> simp only [exec, Option.some.injEq] at h <;> subst h <;>
      simp [Pc.shutdown]
  | _ =>
    simp only [exec] at h
    try split at h
    all_goals simp_all [Pc.shutdown]
    all_goals subst h
    all_goals simp_all [Pc.shutdown]

theorem exec_pass {ret : Option Err} {c : Conductor} {pc : Pc} {l : Local} {t : List Event}
    (h : exec ret c pc = some l) (hs : pc.shutdown = true) (hp : pc.passInv c.cl t)
    (hpre : closes t <+: c.cl) :
    l.pc.passInv c.cl (t ++ l.ev) ∧ closes (t ++ l.ev) <+: c.cl ∧
    (pc.writeLocked = false → closes (t ++ l.ev) = closes t) := by
  cases pc with
  | finLoop rest =>
    cases rest with
    | nil =>
      simp only [exec, Option.some.injEq] at h
      subst h
      simp_all [Pc.passInv, Pc.writeLocked, closes_append, snaps_append, closes, snaps]
    | cons cc rest1 =>
      cases ret <;> simp only [exec, Option.some.injEq] at h <;> subst h <;>
        simp_all [Pc.passInv, Pc.writeLocked, closes_append, snaps_append, closes, snaps]
      all_goals
        rw [← hp.2]
        exact ⟨rest1, by simp⟩
  | finSink err rest =>
    simp only [exec, Option.some.injEq] at h
    subst h
    simp_all [Pc.passInv, Pc.writeLocked, closes_append, snaps_append, closes, snaps]
  | _ =>
    simp only [exec] at h
    try split at h
    all_goals simp_all [Pc.shutdown]
    all_goals subst h
    all_goals simp_all [Pc.passInv, Pc.writeLocked, closes_append, snaps_append, closes, snaps]

theorem exec_plain {ret : Option Err} {c : Conductor} {pc : Pc} {l : Local} {t : List Event}
    (h : exec ret c pc = some l) (hs : pc.shutdown = false) (hp : pc.passInv c.cl t)
    (hpre : closes t <+: c.cl) :
    closes l.ev = [] ∧ snaps l.ev = [] ∧ closes t <+: l.c.cl ∧
    (∀ cl1, l.pc.passInv cl1 t) := by
  cases pc with
  | regWrite old cl0 =>
    simp only [exec, Option.some.injEq] at h
    subst h
    simp only [Pc.passInv] at hp
    refine ⟨rfl, rfl, ?_, fun _ => trivial⟩
    exact hp.trans (List.prefix_append _ _)
  | _ =>
    simp only [exec] at h
    try split at h
    all_goals simp_all [Pc.shutdown]
    all_goals subst h
    all_goals simp_all [Pc.passInv, closes, snaps]

theorem Pc.passInv_readLocked {q : Pc} {cl cl1 : List Res} {t t1 : List Event}
    (hr : q.readLocked = true) (hc : closes t1 = closes t) (h : q.passInv cl t) :
    q.passInv cl1 t1 := by
  cases q <;> simp_all [Pc.passInv, Pc.readLocked]

theorem Inv.writer_false {s : State} (hi : Inv s) {q : Pc} (hq : q ∈ s.threads)
    (hr : q.readLocked = true) : s.c.writer = false := by
  cases hw : s.c.writer
  · rfl
  · have h0 := hi.excl hw
    have h1 := hi.readers
    have h2 := countP_pos_of_mem _ _ q hq hr
    omega

theorem Inv.not_writeLocked {s : State} (hi : Inv s) (hw : s.c.writer = false) {q : Pc}
    (hq : q ∈ s.threads) : q.writeLocked = false := by
  cases h : q.writeLocked
  · rfl
  · rw [hi.writer_of_mem hq h] at hw
    exact absurd hw (by simp)

theorem single_init (errf : Fn) : Single (init errf) := by
  constructor <;> simp [init, NewConductor, snaps, closes]

theorem single_run {s : State} {tid : Nat} {ret : Option Err} {pc : Pc} {l : Local}
    (hi : Inv s) (hs : Single s) (hpc : s.threads[tid]? = some pc)
    (hl : exec ret s.c pc = some l)
    (h1 : (s.threads.set tid l.pc ++ l.spawn).countP Pc.shutdown ≤ 1) :
    Single ⟨l.c, s.threads.set tid l.pc ++ l.spawn, s.trace ++ l.ev⟩ := by
  have hmem : pc ∈ s.threads := List.getElem?_mem hpc
  have hS := countP_split Pc.shutdown s.threads tid pc hpc
  obtain ⟨esh, espawn, espawn0⟩ := exec_shutdown hl
  have hp := hs.each pc hmem
  simp only [List.countP_append, countP_set_split _ _ _ _ _ hpc] at h1
  cases hsd : pc.shutdown with
  | false =>
    obtain ⟨ec, es, epre, enew⟩ := exec_plain hl hsd hp hs.pre
    have hcl : closes (s.trace ++ l.ev) = closes s.trace := by simp [closes_append, ec]
    have hsn : snaps (s.trace ++ l.ev) = snaps s.trace := by simp [snaps_append, es]
    constructor
    · intro h0
      simp only [List.countP_append, countP_set_split _ _ _ _ _ hpc] at h0
      have h2 : s.threads.countP Pc.shutdown = 0 := by
        rw [hS, hsd]
        simp only [Bool.toNat_false]
        omega
      show snaps (s.trace ++ l.ev) = [] ∧ closes (s.trace ++ l.ev) = []
      rw [hcl, hsn]
      exact hs.quiet h2
    · intro q hq
      show q.passInv l.c.cl (s.trace ++ l.ev)
      simp only [List.mem_append] at hq
      rcases hq with hq | hq
      · rcases mem_set_split _ _ _ _ hq with hq | hq
        · subst hq
          exact Pc.passInv_congr hcl hsn (enew _)
        · have hq1 : q ∈ s.threads := List.mem_of_mem_eraseIdx hq
          have hq2 := hs.each q hq1
          cases hrl : pc.readLocked with
          | false =>
            rw [(exec_frame hl).2 hrl]
            exact Pc.passInv_congr hcl hsn hq2
          | true =>
            have hw := hi.writer_false hmem hrl
            exact Pc.passInv_cl (hi.not_writeLocked hw hq1) (Pc.passInv_congr hcl hsn hq2)
      · rw [espawn q hq]
        simp [Pc.passInv]
    · show closes (s.trace ++ l.ev) <+: l.c.cl
      rw [hcl]
      exact epre
  | true =>
    have hls : l.pc.shutdown = true := by rw [esh, hsd]
    have hno : (s.threads.eraseIdx tid).countP Pc.shutdown = 0 := by
      rw [hls] at h1
      simp only [Bool.toNat_true] at h1
      omega
    have hrl := Pc.not_readLocked_of_shutdown hsd
    have hcl : l.c.cl = s.c.cl := (exec_frame hl).2 hrl
    obtain ⟨enew, epre, esame⟩ := exec_pass hl hsd hp hs.pre
    constructor
    · intro h0
      simp only [List.countP_append, countP_set_split _ _ _ _ _ hpc, hls,
        Bool.toNat_true] at h0
      omega
    · intro q hq
      show q.passInv l.c.cl (s.trace ++ l.ev)
      simp only [List.mem_append] at hq
      rcases hq with hq | hq
      · rcases mem_set_split _ _ _ _ hq with hq | hq
        · subst hq
          rw [hcl]
          exact enew
        · have hq1 : q ∈ s.threads := List.mem_of_mem_eraseIdx hq
          have hqs : q.shutdown = false := countP_zero_of_mem _ _ hno q hq
          cases hqr : q.readLocked with
          | false => exact Pc.passInv_of_plain hqs hqr
          | true =>
            have hw := hi.writer_false hq1 hqr
            exact Pc.passInv_readLocked hqr (esame (hi.not_writeLocked hw hmem))
              (hs.each q hq1)
      · rw [espawn0 hsd] at hq
        exact absurd hq (by simp)
    · show closes (s.trace ++ l.ev) <+: l.c.cl
      rw [hcl]
      exact epre

theorem shutdown_mono {s s1 : State} {a : Action} (h : step s a = some s1) :
    s.threads.countP Pc.shutdown ≤ s1.threads.countP Pc.shutdown := by
  cases a with
  | run tid ret =>
    obtain ⟨pc, l, hpc, hl, rfl⟩ := step_run h
    have hS := countP_split Pc.shutdown s.threads tid pc hpc
    simp only [List.countP_append, countP_set_split _ _ _ _ _ hpc, (exec_shutdown hl).1]
    omega
  | _ =>
    simp only [step, Option.some.injEq] at h
    subst h
    simp [List.countP_append]

theorem single_step {s s1 : State} {a : Action} (hi : Inv s) (hs : Single s)
    (h : step s a = some s1) (h1 : s1.threads.countP Pc.shutdown ≤ 1) : Single s1 := by
  cases a with
  | run tid ret =>
    obtain ⟨pc, l, hpc, hl, rfl⟩ := step_run h
    exact single_run hi hs hpc hl h1
  | callFinishAsap =>
    simp only [step, Option.some.injEq] at h
    subst h
    have h2 : List.countP Pc.shutdown (s.threads ++ [Pc.finLock])
        = s.threads.countP Pc.shutdown + 1 := by
      simp [List.countP_append, List.countP_cons, Pc.shutdown]
    have h0 : s.threads.countP Pc.shutdown = 0 := by
      have h3 : List.countP Pc.shutdown (s.threads ++ [Pc.finLock]) ≤ 1 := h1
      omega
    obtain ⟨q1, q2⟩ := hs.quiet h0
    constructor
    · intro h2
      simp [List.countP_append, List.countP_cons, Pc.shutdown] at h2
    · intro q hq
      simp only [List.mem_append, List.mem_singleton] at hq
      rcases hq with hq | hq
      · exact hs.each q hq
      · subst hq
        exact ⟨q1, q2⟩
    · exact hs.pre
  | _ =>
    simp only [step, Option.some.injEq] at h
    subst h
    constructor
    · intro h2
      apply hs.quiet
      simpa [List.countP_append, List.countP_cons, Pc.shutdown] using h2
    · intro q hq
      simp only [List.mem_append, List.mem_singleton] at hq
      rcases hq with hq | hq
      · exact hs.each q hq
      · subst hq
        simp [Pc.passInv]
    · exact hs.pre

theorem single_of_reachable {errf : Fn} {s : State} (h : Reachable errf s) :
    s.threads.countP Pc.shutdown ≤ 1 → Single s := by
  induction h with
  | start => intro _; exact single_init errf
  | next a hr hs ih =>
    intro h1
    exact single_step (inv_of_reachable hr) (ih (le_trans (shutdown_mono hs) h1)) hs h1

theorem Pc.shutdown_of_closing {pc : Pc} (h : pc.closing = true) : pc.shutdown = true := by
  cases pc <;> simp_all [Pc.shutdown, Pc.closing]

/-- C4 as stated fails: after two calls of `FinishAsap` closer 7, appended
once, was closed twice. -/
theorem second_shutdown_closes_again :
    ¬ (∀ s, Reachable 0 s → ∀ r, (closes s.trace).count r ≤ s.c.cl.count r) := by
  intro hall
  have h := hall afterTwoPasses afterTwoPasses_reachable 7
  exact absurd h (by decide)

/-- C4, amended: in every reachable state with at most one call of
`FinishAsap`, the `Close` calls made so far are a prefix of `c.cl` (so every
entry was closed at most once, in order); once that call is past its loop they
are exactly the slice the loop ranged over, and at its `Unlock` exactly `c.cl`;
before any call of `FinishAsap` nothing was closed; and a step that calls
`Close` is always a step of a goroutine inside `FinishAsap`. -/
theorem single_shutdown_closes_once (errf : Fn) (s : State) (h : Reachable errf s)
    (h1 : s.threads.countP Pc.shutdown ≤ 1) :
    closes s.trace <+: s.c.cl ∧
    (∀ r, (closes s.trace).count r ≤ s.c.cl.count r) ∧
    (∀ pc ∈ s.threads, pc.passed = true → snaps s.trace = [closes s.trace]) ∧
    (Pc.finUnlock ∈ s.threads → closes s.trace = s.c.cl) ∧
    (s.threads.countP Pc.shutdown = 0 → closes s.trace = []) ∧
    (∀ a s1, step s a = some s1 → closes s1.trace ≠ closes s.trace →
      ∃ tid ret pc, a = Action.run tid ret ∧ s.threads[tid]? = some pc ∧
        pc.closing = true ∧ pc.shutdown = true) := by
  have hs := single_of_reachable h h1
  refine ⟨hs.pre, fun r => hs.pre.sublist.count_le r, ?_, ?_, fun h0 => (hs.quiet h0).2, ?_⟩
  · intro pc hpc hpass
    have hp := hs.each pc hpc
    cases pc <;> simp_all [Pc.passInv, Pc.passed]
  · intro hmem
    exact (hs.each _ hmem).2
  · intro a s1 hstep hne
    obtain ⟨tid, ret, pc, ha, hpc, hcl⟩ := close_step_closing hstep hne
    exact ⟨tid, ret, pc, ha, hpc, hcl, Pc.shutdown_of_closing hcl⟩

theorem single_shutdown_closes_once_witness :
    Reachable 0 afterOnePass ∧ afterOnePass.threads.countP Pc.shutdown ≤ 1 ∧
    closes afterOnePass.trace <+: afterOnePass.c.cl ∧
    (List.count 7 (closes afterOnePass.trace) ≤ List.count 7 afterOnePass.c.cl) :=
  ⟨afterOnePass_reachable, by decide,
    (single_shutdown_closes_once 0 afterOnePass afterOnePass_reachable (by decide)).1,
    (single_shutdown_closes_once 0 afterOnePass afterOnePass_reachable (by decide)).2.1 7⟩

/-! ## The two embeddings agree -/

theorem getElem?_set_of {α : Type} (l : List α) (i : Nat) (a x : α)
    (h : l[i]? = some a) : (l.set i x)[i]? = some x := by
  have := getElem?_set_append l [] i a x h
  simpa using this

theorem set_same {α : Type} (l : List α) (i : Nat) (a : α) (h : l[i]? = some a) :
    l.set i a = l := by
  apply List.ext_getElem?
  intro j
  by_cases hj : i = j
  · subst hj
    rw [getElem?_set_of l i a a h, h]
  · rw [List.getElem?_set_ne hj]

theorem runs_quiet_step {c c1 : Conductor} {threads : List Pc} {trace ev : List Event}
    {tid : Nat} {ret : Option Err} {pc pc1 : Pc} (rest : List Action)
    (hpc : threads[tid]? = some pc) (hl : exec ret c pc = some ⟨c1, pc1, [], ev⟩) :
    runs ⟨c, threads, trace⟩ (Action.run tid ret :: rest)
      = runs ⟨c1, threads.set tid pc1, trace ++ ev⟩ rest := by
  rw [runs_cons_of_step (@step_run_eq ⟨c, threads, trace⟩ tid ret pc _ hpc hl)]
  simp

theorem runs_loopSched_rets (tid : Nat) (c : Conductor) (cl : List Res) :
    ∀ (rets : List (Option Err)) (threads : List Pc) (trace : List Event),
      rets.length = cl.length → threads[tid]? = some (Pc.finLoop cl) →
      runs ⟨c, threads, trace⟩ (loopSched tid rets)
        = some ⟨c, threads.set tid (Pc.finLoop []), trace ++ expected c.errf cl rets⟩ := by
  induction cl with
  | nil =>
    intro rets threads trace hlen hpc
    cases rets with
    | nil => simp [expected, loopSched, runs, set_same _ _ _ hpc]
    | cons o os => simp at hlen
  | cons cc rest ih =>
    intro rets threads trace hlen hpc
    cases rets with
    | nil => simp at hlen
    | cons o os =>
      have hlen1 : os.length = rest.length := by simpa using hlen
      cases o with
      | none =>
        have e0 : exec none c (Pc.finLoop (cc :: rest))
            = some ⟨c, Pc.finLoop rest, [], [Event.close cc none]⟩ := rfl
        simp only [expected, iterEvents, loopSched]
        rw [runs_quiet_step _ hpc e0, ih os _ _ hlen1 (getElem?_set_of _ _ _ _ hpc)]
        simp [List.set_set]
      | some e =>
        have e0 : exec (some e) c (Pc.finLoop (cc :: rest))
            = some ⟨c, Pc.finSink e rest, [], [Event.close cc (some e)]⟩ := rfl
        have e1 : exec none c (Pc.finSink e rest)
            = some ⟨c, Pc.finLoop rest, [], [Event.sink c.errf e]⟩ := rfl
        have h1 := getElem?_set_of _ _ _ (Pc.finSink e rest) hpc
        simp only [expected, iterEvents, loopSched]
        rw [runs_quiet_step _ hpc e0, runs_quiet_step _ h1 e1,
          ih os _ _ hlen1 (getElem?_set_of _ _ _ _ h1)]
        simp [List.set_set]

theorem runs_finishCall_rets (tid : Nat) (rets : List (Option Err)) (s : State)
    (hpc : s.threads[tid]? = some Pc.finLock)
    (hw : s.c.writer = false) (hr : s.c.readers = 0) (hg : s.c.wg = 0)
    (hlen : rets.length = s.c.cl.length) :
    runs s (finishCall tid rets)
      = some { c := s.c, threads := s.threads.set tid Pc.finRet,
               trace := s.trace ++ Event.pass s.c.cl :: expected s.c.errf s.c.cl rets } := by
  obtain ⟨c, threads, trace⟩ := s
  obtain ⟨wg, readers, writer, cl, errf⟩ := c
  simp only at hpc hw hr hg hlen
  subst hw hr hg
  have e0 : exec none ⟨0, 0, false, cl, errf⟩ Pc.finLock
      = some ⟨⟨0, 0, true, cl, errf⟩, Pc.finWait, [], []⟩ := rfl
  have e1 : exec none ⟨0, 0, true, cl, errf⟩ Pc.finWait
      = some ⟨⟨0, 0, true, cl, errf⟩, Pc.finRange, [], []⟩ := rfl
  have e2 : exec none ⟨0, 0, true, cl, errf⟩ Pc.finRange
      = some ⟨⟨0, 0, true, cl, errf⟩, Pc.finLoop cl, [], [Event.pass cl]⟩ := rfl
  have e3 : exec none ⟨0, 0, true, cl, errf⟩ (Pc.finLoop [])
      = some ⟨⟨0, 0, true, cl, errf⟩, Pc.finUnlock, [], []⟩ := rfl
  have e4 : exec none ⟨0, 0, true, cl, errf⟩ Pc.finUnlock
      = some ⟨⟨0, 0, false, cl, errf⟩, Pc.finRet, [], []⟩ := rfl
  have h1 := getElem?_set_of _ _ _ Pc.finWait hpc
  have h2 := getElem?_set_of _ _ _ Pc.finRange h1
  have h3 := getElem?_set_of _ _ _ (Pc.finLoop cl) h2
  have h4 := getElem?_set_of _ _ _ (Pc.finLoop []) h3
  have h5 := getElem?_set_of _ _ _ Pc.finUnlock h4
  simp only [finishCall, List.cons_append, List.nil_append]
  rw [runs_quiet_step _ hpc e0, runs_quiet_step _ h1 e1, runs_quiet_step _ h2 e2,
    runs_append, runs_loopSched_rets tid ⟨0, 0, true, cl, errf⟩ cl rets _ _ hlen h3]
  simp only [Option.some_bind]
  rw [runs_quiet_step _ h4 e3, runs_quiet_step _ h5 e4]
  simp [runs, List.set_set]

/-- The concurrent embedding refines the sequential one: a call of
`FinishAsap` that can proceed and that no other goroutine interrupts makes
exactly the calls the sequential `FinishAsap` makes, and leaves the conductor
as the sequential `FinishAsap` leaves it. -/
theorem runs_finishCall {σ : Type} (env : Env σ) (tid : Nat) (w : σ) (s : State)
    (hpc : s.threads[tid]? = some Pc.finLock)
    (hw : s.c.writer = false) (hr : s.c.readers = 0) (hg : s.c.wg = 0) :
    ∃ t w1, FinishAsap env s.c w = some (s.c, t, w1) ∧
      runs s (finishCall tid (closeRets t))
        = some { c := s.c, threads := s.threads.set tid Pc.finRet, trace := s.trace ++ t } := by
  refine ⟨_, _, FinishAsap_eq env s.c w hw hr hg, ?_⟩
  have h := runs_finishCall_rets tid (closeRets (releasePass env s.c.errf s.c.cl w).1) s
    hpc hw hr hg (closeRets_releasePass env s.c.errf s.c.cl w)
  rw [← releasePass_expected env s.c.errf s.c.cl w] at h
  simpa [closeRets] using h

theorem closes_expected (errf : Fn) (cl : List Res) :
    ∀ rets : List (Option Err), rets.length = cl.length →
      closes (expected errf cl rets) = cl ∧ closeRets (expected errf cl rets) = rets ∧
      sinks (expected errf cl rets) = rets.filterMap id ∧
      passes (expected errf cl rets) = 0 ∧
      (∀ f ∈ sinkFns (expected errf cl rets), f = errf) := by
  induction cl with
  | nil =>
    intro rets hlen
    cases rets with
    | nil => simp [expected, closes, closeRets, sinks, passes, sinkFns]
    | cons o os => simp at hlen
  | cons cc rest ih =>
    intro rets hlen
    cases rets with
    | nil => simp at hlen
    | cons o os =>
      obtain ⟨h1, h2, h3, h4, h5⟩ := ih os (by simpa using hlen)
      cases o <;>
        simp [expected, iterEvents, closes, closeRets, sinks, passes, sinkFns, h1, h2, h3, h4]
      · exact h5
      · exact h5

theorem runs_register_then_finish (errf : Fn) (cls : List (List Res))
    (rets : List (Option Err)) (hlen : rets.length = cls.flatten.length) :
    runs (init errf) (registerSeq 0 cls ++ Action.callFinishAsap :: finishCall cls.length rets)
      = some { c := { NewConductor errf with cl := cls.flatten },
               threads := List.replicate cls.length Pc.ret ++ [Pc.finRet],
               trace := Event.pass cls.flatten :: expected errf cls.flatten rets } := by
  have hreg : runs (init errf) (registerSeq 0 cls) = _ := runs_registerSeq cls (init errf) rfl
  rw [runs_append, hreg]
  simp only [Option.some_bind, init, NewConductor, List.nil_append]
  have hcall : step ⟨⟨0, 0, false, cls.flatten, errf⟩, List.replicate cls.length Pc.ret, []⟩
      Action.callFinishAsap
      = some ⟨⟨0, 0, false, cls.flatten, errf⟩,
          List.replicate cls.length Pc.ret ++ [Pc.finLock], []⟩ := rfl
  have hpc : (List.replicate cls.length Pc.ret ++ [Pc.finLock])[cls.length]?
      = some Pc.finLock := by
    rw [List.getElem?_append_right (by simp)]
    simp
  rw [runs_cons_of_step hcall,
    runs_finishCall_rets cls.length rets ⟨_, _, _⟩ hpc rfl rfl rfl hlen]
  simp [List.set_append_right]

/-! ## One call of `FinishAsap` -/

/-- C1: a call of `FinishAsap` that can proceed (mutex free, counter zero)
returns, starts one release pass and calls `Close` on exactly the entries of
`c.cl`, once each and in slice order, whatever the `Close` calls return and
whatever they and the callback do to the world.  In the concurrent embedding:
after `RegisterClosers` was called with `cls` on a fresh conductor, a call of
`FinishAsap` whose `Close` calls return `rets` (any values) runs to its end and
has called `Close` on exactly the registered closers, in registration order. -/
theorem FinishAsap_closes_in_order {σ : Type} (env : Env σ) (c : Conductor) (w : σ)
    (hw : c.writer = false) (hr : c.readers = 0) (hg : c.wg = 0) :
    (∃ t w1, FinishAsap env c w = some (c, t, w1) ∧ closes t = c.cl ∧ passes t = 1) ∧
    (∀ (errf : Fn) (cls : List (List Res)) (rets : List (Option Err)),
      rets.length = cls.flatten.length →
      ∃ s1, runs (init errf)
          (registerSeq 0 cls ++ Action.callFinishAsap :: finishCall cls.length rets) = some s1 ∧
        s1.threads[cls.length]? = some Pc.finRet ∧ s1.c.cl = cls.flatten ∧
        closes s1.trace = cls.flatten ∧ closeRets s1.trace = rets ∧ passes s1.trace = 1) := by
  refine ⟨⟨_, _, FinishAsap_eq env c w hw hr hg, ?_, ?_⟩, ?_⟩
  · simp [closes, closes_releasePass]
  · simp [passes, passes_releasePass]
  · intro errf cls rets hlen
    obtain ⟨h1, h2, _, h4, _⟩ := closes_expected errf cls.flatten rets hlen
    refine ⟨_, runs_register_then_finish errf cls rets hlen, ?_, rfl, ?_, ?_, ?_⟩
    · rw [List.getElem?_append_right (by simp)]
      simp
    · simpa [closes] using h1
    · simpa [closeRets] using h2
    · simpa [passes] using h4

theorem FinishAsap_closes_in_order_witness :
    ∃ t w1, FinishAsap secondFails ⟨0, 0, false, [1, 2, 3], 0⟩ ()
        = some (⟨0, 0, false, [1, 2, 3], 0⟩, t, w1)
      ∧ closes t = [1, 2, 3] ∧ passes t = 1 :=
  (FinishAsap_closes_in_order secondFails ⟨0, 0, false, [1, 2, 3], 0⟩ () rfl rfl rfl).1

/-- C2: in a call of `FinishAsap` that can proceed, the values passed to the
callback are the non-nil errors returned by `Close`, in order; the callback is
always `c.errf`; the calls are, entry by entry, `Close` followed by the
callback exactly when `Close` failed; the call returns a conductor and no
failure.  With three closers of which the second fails with "E" there are
three `Close` calls and the callback receives exactly "E"; with no closer the
callback is not called.  In the concurrent embedding: after `RegisterClosers`
was called with `cls` on a fresh conductor, a call of `FinishAsap` whose
`Close` calls return `rets` runs to its end, and the callback, always `errf`,
received exactly the non-nil values of `rets`, each right after its `Close`. -/
theorem FinishAsap_sink_calls {σ : Type} (env : Env σ) (c : Conductor) (w : σ)
    (hw : c.writer = false) (hr : c.readers = 0) (hg : c.wg = 0) :
    (∃ t w1, FinishAsap env c w = some (c, t, w1) ∧
      sinks t = failures t ∧
      (∀ f ∈ sinkFns t, f = c.errf) ∧
      (closeRets t).length = c.cl.length ∧
      t = Event.pass c.cl :: expected c.errf c.cl (closeRets t)) ∧
    (FinishAsap secondFails ⟨0, 0, false, [1, 2, 3], 7⟩ ()).map
        (fun out => (closes out.2.1, sinks out.2.1, sinkFns out.2.1))
      = some ([1, 2, 3], ["E"], [7]) ∧
    (FinishAsap env ⟨0, 0, false, [], c.errf⟩ w).map (fun out => (closes out.2.1, sinks out.2.1))
      = some ([], []) ∧
    (∀ (errf : Fn) (cls : List (List Res)) (rets : List (Option Err)),
      rets.length = cls.flatten.length →
      ∃ s1, runs (init errf)
          (registerSeq 0 cls ++ Action.callFinishAsap :: finishCall cls.length rets) = some s1 ∧
        s1.threads[cls.length]? = some Pc.finRet ∧
        s1.trace = Event.pass cls.flatten :: expected errf cls.flatten rets ∧
        sinks s1.trace = rets.filterMap id ∧ (∀ f ∈ sinkFns s1.trace, f = errf)) := by
  refine ⟨⟨_, _, FinishAsap_eq env c w hw hr hg, ?_, ?_, ?_, ?_⟩, ?_, ?_, ?_⟩
  · simp [sinks, failures, sinks_releasePass]
  · intro f hf
    simp only [sinkFns] at hf
    exact sinkFns_releasePass env c.errf c.cl w f hf
  · simp [closeRets, closeRets_releasePass]
  · simp only [closeRets, List.cons.injEq, true_and]
    exact releasePass_expected env c.errf c.cl w
  · rfl
  · rfl
  · intro errf cls rets hlen
    obtain ⟨_, _, h3, _, h5⟩ := closes_expected errf cls.flatten rets hlen
    refine ⟨_, runs_register_then_finish errf cls rets hlen, ?_, rfl, ?_, ?_⟩
    · rw [List.getElem?_append_right (by simp)]
      simp
    · simpa [sinks] using h3
    · simpa [sinkFns] using h5

theorem FinishAsap_sink_calls_witness :
    (∃ t w1, FinishAsap secondFails ⟨0, 0, false, [4, 2], 7⟩ ()
        = some (⟨0, 0, false, [4, 2], 7⟩, t, w1) ∧
      sinks t = failures t ∧
      (∀ f ∈ sinkFns t, f = 7) ∧
      (closeRets t).length = 2 ∧
      t = Event.pass [4, 2] :: expected 7 [4, 2] (closeRets t)) :=
  (FinishAsap_sink_calls secondFails ⟨0, 0, false, [4, 2], 7⟩ () rfl rfl rfl).1

end GoConductor
